import Mathlib

/-!
Verification of the secret materialization engine of `sm2env` (`src/main.rs`).

The development shallowly embeds the string-processing core of the program:
payload classification (`detect_secret_format`), the `.env`/JSON/YAML/CSV
key-value extraction and rendering helpers (`process_env_text`,
`parse_env_vars`, `convert_env_to_csv`, `escape_csv_field`, the env-content
loops of `process_json_secret`), and the listing formatter (`list_secrets`).
Strings are modelled as `List Char`; Rust string primitives (`str::lines`,
`str::trim`, `str::trim_matches`, `str::find('=')`) are given faithful
models, and `serde_json` parsing is modelled by an executable recursive
descent parser of the JSON grammar.
-/

namespace SmEnv

/-- Whitespace characters recognised by the JSON grammar (RFC 8259). -/
def jsonWs (c : Char) : Bool :=
  c = ' ' || c = '\t' || c = '\n' || c = '\r'

/-- Whitespace test modelling Rust `char::is_whitespace` on the ASCII range. -/
def rustWs (c : Char) : Bool :=
  c = ' ' || c = '\t' || c = '\n' || c = '\r' || c = '\x0b' || c = '\x0c'

/-- Model of Rust `str::trim`: drop leading and trailing whitespace. -/
def rustTrim (l : List Char) : List Char :=
  ((l.dropWhile rustWs).reverse.dropWhile rustWs).reverse

/-- Model of Rust `str::trim_matches('"')`: strip every leading and trailing
double quote (not just one layer, and also quotes present on one side only). -/
def trimQuotes (l : List Char) : List Char :=
  ((l.dropWhile (· == '"')).reverse.dropWhile (· == '"')).reverse

/-- Split a line at its first `'='` (Rust `line.find('=')` followed by the
two slices): returns the part before and the part after, if any. -/
def splitFirstEq : List Char → Option (List Char × List Char)
  | [] => none
  | c :: r =>
    if c = '=' then some ([], r)
    else (splitFirstEq r).map (fun p => (c :: p.1, p.2))

/-- Split a character list at every `'\n'` (keeping empty segments). -/
def splitNl : List Char → List (List Char)
  | [] => [[]]
  | c :: r =>
    if c = '\n' then [] :: splitNl r
    else
      match splitNl r with
      | [] => [[c]]
      | l :: ls => (c :: l) :: ls

/-- Strip one trailing carriage return, as Rust `str::lines` does on
newline-terminated segments. -/
def stripCr (l : List Char) : List Char :=
  if l.getLast? = some '\r' then l.dropLast else l

/-- Model of Rust `str::lines`: split on `'\n'`; every newline-terminated
segment has one trailing `'\r'` stripped; a final unterminated segment is
kept as is; a trailing newline yields no final empty line. -/
def rustLines (cs : List Char) : List (List Char) :=
  if cs = [] then []
  else if cs.getLast? = some '\n' then ((splitNl cs).dropLast).map stripCr
  else ((splitNl cs).dropLast).map stripCr ++ [(splitNl cs).getLastD []]

/-- Append a newline after every element and concatenate. -/
def joinNl : List (List Char) → List Char
  | [] => []
  | x :: xs => x ++ '\n' :: joinNl xs

/-- Insertion into the insertion-ordered JSON map model used by
`parse_env_vars` (replace in place on an existing key, else append; the
spec fixes insertion order preservation for the mapping container). -/
def insertMap (m : List (List Char × List Char)) (k v : List Char) :
    List (List Char × List Char) :=
  if m.any (fun p => p.1 == k) then
    m.map (fun p => if p.1 == k then (k, v) else p)
  else m ++ [(k, v)]

/-- JSON values as `serde_json::Value` is used by the program; object member
order is the document order (the spec fixes order preservation), and numbers
keep their source token. -/
inductive JsonVal : Type where
  | null : JsonVal
  | bool : Bool → JsonVal
  | num : List Char → JsonVal
  | str : List Char → JsonVal
  | arr : List JsonVal → JsonVal
  | obj : List (List Char × JsonVal) → JsonVal

/-- Lower hexadecimal digit of a value below 16. -/
def hexDigit (n : Nat) : Char :=
  if n < 10 then Char.ofNat (48 + n) else Char.ofNat (87 + n)

/-- JSON string escaping of one character (as `serde_json::to_string`). -/
def escJsonChar (c : Char) : List Char :=
  if c = '"' then ['\\', '"']
  else if c = '\\' then ['\\', '\\']
  else if c = '\n' then ['\\', 'n']
  else if c = '\r' then ['\\', 'r']
  else if c = '\t' then ['\\', 't']
  else if c = '\x08' then ['\\', 'b']
  else if c = '\x0c' then ['\\', 'f']
  else if c.toNat < 32 then ['\\', 'u', '0', '0', hexDigit (c.toNat / 16), hexDigit (c.toNat % 16)]
  else [c]

/-- JSON string escaping. -/
def escJsonStr (l : List Char) : List Char :=
  l.foldr (fun c acc => escJsonChar c ++ acc) []

mutual

/-- Compact JSON serialization, modelling `serde_json::Value::to_string`. -/
def serializeCompact : JsonVal → List Char
  | .null => "null".data
  | .bool true => "true".data
  | .bool false => "false".data
  | .num s => s
  | .str s => '"' :: escJsonStr s ++ ['"']
  | .arr xs => '[' :: serializeArr xs ++ [']']
  | .obj ms => '\x7b' :: serializeObj ms ++ ['\x7d']

/-- Comma-separated serialization of array elements. -/
def serializeArr : List JsonVal → List Char
  | [] => []
  | [x] => serializeCompact x
  | x :: y :: xs => serializeCompact x ++ ',' :: serializeArr (y :: xs)

/-- Comma-separated serialization of object members. -/
def serializeObj : List (List Char × JsonVal) → List Char
  | [] => []
  | [(k, v)] => '"' :: escJsonStr k ++ '"' :: ':' :: serializeCompact v
  | (k, v) :: m :: ms =>
    ('"' :: escJsonStr k ++ '"' :: ':' :: serializeCompact v) ++ ',' :: serializeObj (m :: ms)

end

/-- Skip JSON whitespace. -/
def skipWs : List Char → List Char
  | [] => []
  | c :: r => if jsonWs c then skipWs r else c :: r

/-- Hexadecimal digit test. -/
def isHexDigit (c : Char) : Bool :=
  c.isDigit || ('a' ≤ c && c ≤ 'f') || ('A' ≤ c && c ≤ 'F')

/-- Value of a hexadecimal digit. -/
def hexVal (c : Char) : Nat :=
  if c.isDigit then c.toNat - 48
  else if 'a' ≤ c && c ≤ 'f' then c.toNat - 87
  else c.toNat - 55

/-- Single-character JSON string escapes. -/
def escCharOf (c : Char) : Option Char :=
  if c = '"' then some '"'
  else if c = '\\' then some '\\'
  else if c = '/' then some '/'
  else if c = 'b' then some '\x08'
  else if c = 'f' then some '\x0c'
  else if c = 'n' then some '\n'
  else if c = 'r' then some '\r'
  else if c = 't' then some '\t'
  else none

/-- Parse the body of a JSON string literal, after the opening quote. -/
def parseStringBody : Nat → List Char → Option (List Char × List Char)
  | 0, _ => none
  | n + 1, cs =>
    match cs with
    | [] => none
    | c :: r =>
      if c = '"' then some ([], r)
      else if c = '\\' then
        match r with
        | [] => none
        | e :: r2 =>
          if e = 'u' then
            match r2 with
            | a :: b :: c2 :: d :: r3 =>
              if isHexDigit a && isHexDigit b && isHexDigit c2 && isHexDigit d then
                (parseStringBody n r3).map (fun p =>
                  (Char.ofNat (((hexVal a * 16 + hexVal b) * 16 + hexVal c2) * 16 + hexVal d)
                    :: p.1, p.2))
              else none
            | _ => none
          else
            match escCharOf e with
            | some ch => (parseStringBody n r2).map (fun p => (ch :: p.1, p.2))
            | none => none
      else if c.toNat < 32 then none
      else (parseStringBody n r).map (fun p => (c :: p.1, p.2))

/-- Characters a JSON number token may be built from. -/
def numChar (c : Char) : Bool :=
  c.isDigit || c = '-' || c = '+' || c = '.' || c = 'e' || c = 'E'

/-- Validity of the exponent suffix of a JSON number token. -/
def validExp : List Char → Bool
  | [] => true
  | e :: r =>
    (e = 'e' || e = 'E') &&
      (match r with
       | '+' :: d :: r2 => d.isDigit && (r2.dropWhile Char.isDigit).isEmpty
       | '-' :: d :: r2 => d.isDigit && (r2.dropWhile Char.isDigit).isEmpty
       | d :: r2 => d.isDigit && (r2.dropWhile Char.isDigit).isEmpty
       | [] => false)

/-- Validity of the fraction-and-exponent suffix of a JSON number token. -/
def validFrac : List Char → Bool
  | '.' :: r =>
    (match r with
     | d :: r2 => d.isDigit && validExp (r2.dropWhile Char.isDigit)
     | [] => false)
  | l => validExp l

/-- Validity of a whole JSON number token. -/
def validNum (l : List Char) : Bool :=
  match (match l with | '-' :: r => r | _ => l) with
  | '0' :: r => validFrac r
  | c :: r => c.isDigit && validFrac (r.dropWhile Char.isDigit)
  | [] => false

/-- Parse a JSON number: take the maximal run of number characters and
validate it against the JSON number grammar. -/
def parseNumber (cs : List Char) : Option (JsonVal × List Char) :=
  let tok := cs.takeWhile numChar
  if validNum tok then some (.num tok, cs.dropWhile numChar) else none

mutual

/-- Recursive descent JSON value parser (fuelled), modelling
`serde_json::from_str`. -/
def parseValue : Nat → List Char → Option (JsonVal × List Char)
  | 0, _ => none
  | n + 1, cs =>
    match skipWs cs with
    | [] => none
    | '\x7b' :: r =>
      (match skipWs r with
       | '\x7d' :: r2 => some (.obj [], r2)
       | _ => (parseMembers n r).map (fun p => (JsonVal.obj p.1, p.2)))
    | '[' :: r =>
      (match skipWs r with
       | ']' :: r2 => some (.arr [], r2)
       | _ => (parseElems n r).map (fun p => (JsonVal.arr p.1, p.2)))
    | '"' :: r => (parseStringBody (r.length + 1) r).map (fun p => (JsonVal.str p.1, p.2))
    | 't' :: r => if r.take 3 = ['r', 'u', 'e'] then some (.bool true, r.drop 3) else none
    | 'f' :: r => if r.take 4 = ['a', 'l', 's', 'e'] then some (.bool false, r.drop 4) else none
    | 'n' :: r => if r.take 3 = ['u', 'l', 'l'] then some (.null, r.drop 3) else none
    | c :: r => parseNumber (c :: r)

/-- Parse the elements of a non-empty JSON array, after the opening bracket. -/
def parseElems : Nat → List Char → Option (List JsonVal × List Char)
  | 0, _ => none
  | n + 1, cs =>
    match parseValue n cs with
    | none => none
    | some (v, r) =>
      match skipWs r with
      | ',' :: r2 => (parseElems n r2).map (fun p => (v :: p.1, p.2))
      | ']' :: r2 => some ([v], r2)
      | _ => none

/-- Parse the members of a non-empty JSON object, after the opening brace. -/
def parseMembers : Nat → List Char → Option (List (List Char × JsonVal) × List Char)
  | 0, _ => none
  | n + 1, cs =>
    match skipWs cs with
    | '"' :: r =>
      (match parseStringBody (r.length + 1) r with
       | none => none
       | some (k, r2) =>
         match skipWs r2 with
         | ':' :: r3 =>
           (match parseValue n r3 with
            | none => none
            | some (v, r4) =>
              match skipWs r4 with
              | ',' :: r5 => (parseMembers n r5).map (fun p => ((k, v) :: p.1, p.2))
              | '\x7d' :: r5 => some ([(k, v)], r5)
              | _ => none)
         | _ => none)
    | _ => none

end

/-- Model of `serde_json::from_str::<Value>`: parse one value with enough
fuel and require only trailing whitespace. -/
def jsonParse (cs : List Char) : Option JsonVal :=
  match parseValue (cs.length + 1) cs with
  | some (v, r) => if skipWs r = [] then some v else none
  | none => none

/-- The classification result of `detect_secret_format`. -/
inductive SecretFormat : Type where
  | json : JsonVal → SecretFormat
  | plainText : List Char → SecretFormat

/-- `detect_secret_format`: a payload that parses as JSON is structured,
anything else is plain text. -/
def detect_secret_format (cs : List Char) : SecretFormat :=
  match jsonParse cs with
  | some v => .json v
  | none => .plainText cs

/-- `value.as_str().map(to_string).unwrap_or_else(value.to_string())`:
a JSON string value is unwrapped to its text, anything else is serialized. -/
def jsonValueToEnvChars : JsonVal → List Char
  | .str s => s
  | v => serializeCompact v

/-- `json.as_object()`. -/
def asObject? : JsonVal → Option (List (List Char × JsonVal))
  | .obj ms => some ms
  | _ => none

/-- Env content built by `process_json_secret` in the caller-supplied-file
branch: one `key=value` line per member, quotes trimmed from the value. -/
def env_content_json_file (ms : List (List Char × JsonVal)) : List Char :=
  joinNl (ms.map (fun kv => kv.1 ++ '=' :: trimQuotes (jsonValueToEnvChars kv.2)))

/-- Env content built by `process_json_secret` in the default-file branch
(the duplicated loop writing `.env`). -/
def env_content_json_default (ms : List (List Char × JsonVal)) : List Char :=
  joinNl (ms.map (fun kv => kv.1 ++ '=' :: trimQuotes (jsonValueToEnvChars kv.2)))

/-- Content written by the `Stdout`-with-file branch of
`process_json_secret` for an object payload: formatted `key=value` lines. -/
def stdout_file_json_lines (ms : List (List Char × JsonVal)) : List Char :=
  joinNl (ms.map (fun kv => kv.1 ++ '=' :: trimQuotes (jsonValueToEnvChars kv.2)))

/-- Content written to the caller-supplied file by the `Stdout` branch of
`process_json_secret`: `key=value` lines for an object, compact
serialization otherwise. -/
def stdout_file_json_content (j : JsonVal) : List Char :=
  match asObject? j with
  | some ms => stdout_file_json_lines ms
  | none => serializeCompact j

/-- Bytes written to the caller-supplied file when the render target is
`Stdout` and the fetched secret is a string: classification followed by the
`Stdout`-with-file branch of the matching processor. -/
def stdout_file_secret_string_content (cs : List Char) : List Char :=
  match detect_secret_format cs with
  | .json v => stdout_file_json_content v
  | .plainText t => t

/-- Bytes written by the `Stdout`-with-file branch of
`process_binary_secret`: the raw binary data. -/
def stdout_file_binary_content (b : List Nat) : List Nat := b

/-- One line of `process_env_text`: split at the first `'='` and trim all
surrounding quotes from the value, or keep the line as is. -/
def procLine (l : List Char) : List Char :=
  match splitFirstEq l with
  | some kv => kv.1 ++ '=' :: trimQuotes kv.2
  | none => l

/-- `process_env_text`: process every line, then drop the added trailing
newline when the input had none. -/
def process_env_text (cs : List Char) : List Char :=
  let r := joinNl ((rustLines cs).map procLine)
  if r.getLast? = some '\n' ∧ ¬cs.getLast? = some '\n' then r.dropLast else r

/-- Env-format content for a plain-text secret (`process_plain_text_secret`,
`Env` branch): quote processing with a guaranteed trailing newline when the
text contains `'='`, else a default `SECRET_VALUE` line. -/
def plain_env_content (cs : List Char) : List Char :=
  if cs.contains '=' then
    (let p := process_env_text cs
     if p.getLast? = some '\n' then p else p ++ ['\n'])
  else "SECRET_VALUE=".data ++ cs ++ ['\n']

/-- One loop iteration of `parse_env_vars`. -/
def parse_env_line (m : List (List Char × List Char)) (line : List Char) :
    List (List Char × List Char) :=
  let t := rustTrim line
  if t = [] then m
  else if t.head? = some '#' then m
  else
    match splitFirstEq t with
    | none => m
    | some kv =>
      let k := rustTrim kv.1
      if k = [] then m else insertMap m k (rustTrim kv.2)

/-- `parse_env_vars`: fold the per-line rule over the text's lines. -/
def parse_env_vars (cs : List Char) : List (List Char × List Char) :=
  (rustLines cs).foldl parse_env_line []

/-- Characters that force csv-crate quoting of a field (delimiter, quote,
record terminator). -/
def csvSpecial (c : Char) : Bool :=
  c = ',' || c = '"' || c = '\n' || c = '\r'

/-- Double every quote, as CSV quoting does inside a quoted field. -/
def doubleQuotes : List Char → List Char
  | [] => []
  | c :: r => if c = '"' then '"' :: '"' :: doubleQuotes r else c :: doubleQuotes r

/-- Field escaping performed by the csv crate under its default
necessary-only quoting style. -/
def csvEscapeField (l : List Char) : List Char :=
  if l.any csvSpecial then '"' :: doubleQuotes l ++ ['"'] else l

/-- One record written by the csv writer: escaped fields joined by commas,
terminated by a newline. -/
def csvRecordLine (fields : List (List Char)) : List Char :=
  (List.intercalate [','] (fields.map csvEscapeField)) ++ ['\n']

/-- One loop iteration of `convert_env_to_csv` (the row it appends, if any). -/
def csv_row_step (acc : List (List Char × List Char)) (line : List Char) :
    List (List Char × List Char) :=
  let t := rustTrim line
  if t = [] then acc
  else if t.head? = some '#' then acc
  else
    match splitFirstEq t with
    | none => acc
    | some kv =>
      let k := rustTrim kv.1
      if k = [] then acc else acc ++ [(k, trimQuotes (rustTrim kv.2))]

/-- The data rows `convert_env_to_csv` writes, in order. -/
def convert_env_to_csv_rows (cs : List Char) : List (List Char × List Char) :=
  (rustLines cs).foldl csv_row_step []

/-- `convert_env_to_csv`: header row plus one record per extracted pair. -/
def convert_env_to_csv (cs : List Char) : List Char :=
  "key,value\n".data ++
    ((convert_env_to_csv_rows cs).map (fun kv => csvRecordLine [kv.1, kv.2])).foldr
      (· ++ ·) []

/-- `escape_csv_field`: one single-field record written by a csv writer. -/
def escape_csv_field (l : List Char) : List Char := csvRecordLine [l]

/-- Key/value extraction (spec section 4.2) as the program implements it:
object members with string values unwrapped, other values serialized; a
plain text is fed to `parse_env_vars` exactly when it contains `'='` and a
newline (the condition the JSON/YAML/CSV plain-text branches test). -/
def extract_kv : SecretFormat → Option (List (List Char × List Char))
  | .json v =>
    (match asObject? v with
     | some ms => some (ms.map (fun kv => (kv.1, jsonValueToEnvChars kv.2)))
     | none => none)
  | .plainText t =>
    if t.contains '=' && t.contains '\n' then some (parse_env_vars t) else none

/-- The `Env` branches of `process_json_secret`: the files written (path and
content) and the messages printed, for both destinations. -/
def process_json_secret_env (j : JsonVal) (file : Option String) :
    List (String × List Char) × List String :=
  match file with
  | some path =>
    (match asObject? j with
     | some ms =>
       ([(path, env_content_json_file ms)], [".env file created successfully at " ++ path])
     | none => ([], ["The secret is not a valid JSON object."]))
  | none =>
    (match asObject? j with
     | some ms => ([(".env", env_content_json_default ms)], [".env file created successfully!"])
     | none => ([], ["The secret is not a valid JSON object."]))

/-- The filter predicate of `list_secrets`: no filter, or case-sensitive
substring containment (`name.contains(f)`). -/
def nameMatches (filter : Option String) (n : String) : Bool :=
  match filter with
  | some f => decide (f.data <:+: n.data)
  | none => true

/-- Lexicographic comparison of character lists, modelling the byte order
`Vec<String>::sort` uses (UTF-8 byte order equals code-point order). -/
def charListLe : List Char → List Char → Bool
  | [], _ => true
  | x :: xs, ys =>
    match ys with
    | [] => false
    | y :: tail => if x < y then true else if x = y then charListLe xs tail else false

/-- Lexicographic order on strings (model of Rust `String` ordering). -/
def stringLe (a b : String) : Bool := charListLe a.data b.data

/-- `stringLe` as a relation. -/
def stringLeP (a b : String) : Prop := stringLe a b = true

instance stringLeP_decidable : DecidableRel stringLeP := by
  unfold stringLeP
  infer_instance

/-- The names `list_secrets` displays: filtered during collection, then
sorted (`secrets.sort()`). -/
def list_secrets_retained (names : List String) (filter : Option String) : List String :=
  List.insertionSort stringLeP (names.filter (nameMatches filter))

/-- The lines `list_secrets` prints. -/
def list_secrets_output (names : List String) (filter : Option String) : List String :=
  let s := list_secrets_retained names filter
  if s.isEmpty then ["No secrets found."]
  else
    "Available secrets:" :: s.map (fun n => "- " ++ n) ++
      ["\nTotal: " ++ toString s.length ++ " secrets"]

/-- Modelled from the spec (claim C2's wording): remove exactly one layer of
surrounding double quotes, leaving a value unchanged when it is not wrapped
in quotes on both ends. Used only to compare against the code's
`trim_matches` behaviour. -/
def specStripOneLayer (l : List Char) : List Char :=
  if 2 ≤ l.length ∧ l.head? = some '"' ∧ l.getLast? = some '"' then (l.drop 1).dropLast else l

/-- Collapse doubled quotes, the inverse of CSV quote doubling. -/
def collapseQuotes : List Char → List Char
  | [] => []
  | [c] => [c]
  | c :: d :: r =>
    if c = '"' ∧ d = '"' then '"' :: collapseQuotes r
    else c :: collapseQuotes (d :: r)

/-- Standard CSV unescaping of one emitted field: strip the surrounding
quotes when present on both ends and collapse the doubled quotes inside. -/
def csvUnescape (l : List Char) : List Char :=
  match l with
  | [] => []
  | c :: r =>
    if c = '"' ∧ r ≠ [] ∧ r.getLast? = some '"' then collapseQuotes r.dropLast else c :: r

/-- Env rendering of abstract (key, value) entries: the env-content loop of
`process_json_secret` applied to the corresponding string-valued object. -/
def env_render_entries (e : List (List Char × List Char)) : List Char :=
  env_content_json_file (e.map (fun kv => (kv.1, JsonVal.str kv.2)))

/-- Entries for which the env round trip is exact (claim C5, as amended):
nonempty trimmed keys not starting `'#'`, trimmed values, and no `'='`,
newline or double quote in either component. -/
def goodEntry (kv : List Char × List Char) : Prop :=
  kv.1 ≠ [] ∧ rustTrim kv.1 = kv.1 ∧ rustTrim kv.2 = kv.2 ∧
    '=' ∉ kv.1 ∧ '\n' ∉ kv.1 ∧ '"' ∉ kv.1 ∧
    '=' ∉ kv.2 ∧ '\n' ∉ kv.2 ∧ '"' ∉ kv.2 ∧
    kv.1.head? ≠ some '#'

instance goodEntry_decidable (kv : List Char × List Char) : Decidable (goodEntry kv) := by
  unfold goodEntry
  infer_instance

/-- Claim-shaped per-line rule for the JSON/YAML conversions (claim C3, as
amended): split the raw line on its first `'='`; the key is the part before,
whitespace-trimmed; comment lines and empty-key lines are dropped; the value
is the part after, whitespace-trimmed, quotes kept. -/
def spec_parse_line (m : List (List Char × List Char)) (line : List Char) :
    List (List Char × List Char) :=
  match splitFirstEq line with
  | none => m
  | some kv =>
    if (rustTrim line).head? = some '#' then m
    else
      (let k := rustTrim kv.1
       if k = [] then m else insertMap m k (rustTrim kv.2))

/-- Claim-shaped per-line rule for the CSV conversion (claim C3, as
amended): as `spec_parse_line` but with every surrounding double quote
removed from the value, appending rows instead of inserting into a map. -/
def spec_csv_line (acc : List (List Char × List Char)) (line : List Char) :
    List (List Char × List Char) :=
  match splitFirstEq line with
  | none => acc
  | some kv =>
    if (rustTrim line).head? = some '#' then acc
    else
      (let k := rustTrim kv.1
       if k = [] then acc else acc ++ [(k, trimQuotes (rustTrim kv.2))])

/-! ### Basic lemmas about the string primitives -/

theorem splitFirstEq_eq_none {l : List Char} : splitFirstEq l = none ↔ '=' ∉ l := by
  induction l with
  | nil => simp [splitFirstEq]
  | cons c r ih =>
    by_cases hc : c = '='
    · subst hc; simp [splitFirstEq]
    · simp [splitFirstEq, hc, ih, List.mem_cons, Ne.symm hc]

theorem splitFirstEq_decomp {l k v : List Char} (h : splitFirstEq l = some (k, v)) :
    l = k ++ '=' :: v ∧ '=' ∉ k := by
  induction l generalizing k with
  | nil => simp [splitFirstEq] at h
  | cons c r ih =>
    by_cases hc : c = '='
    · subst hc
      simp only [splitFirstEq] at h
      rcases h with ⟨rfl, rfl⟩
      exact ⟨rfl, by simp⟩
    · simp only [splitFirstEq, if_neg hc, Option.map_eq_some'] at h
      obtain ⟨⟨k', v'⟩, hp, hpe⟩ := h
      simp only [Prod.mk.injEq] at hpe
      obtain ⟨h1, h2⟩ := hpe
      subst h2
      subst h1
      obtain ⟨hd, hm⟩ := ih hp
      refine ⟨by simp [hd], ?_⟩
      intro hmem
      rcases List.mem_cons.1 hmem with h | h
      · exact hc h.symm
      · exact hm h

theorem splitFirstEq_of_decomp {k v : List Char} (hk : '=' ∉ k) :
    splitFirstEq (k ++ '=' :: v) = some (k, v) := by
  induction k with
  | nil => simp [splitFirstEq]
  | cons c r ih =>
    have hc : c ≠ '=' := fun h => hk (h ▸ List.mem_cons_self c r)
    have hr : '=' ∉ r := fun h => hk (List.mem_cons_of_mem c h)
    simp [splitFirstEq, hc, ih hr]

theorem splitFirstEq_append_left {a x : List Char} (ha : '=' ∉ a) :
    splitFirstEq (a ++ x) = (splitFirstEq x).map (fun p => (a ++ p.1, p.2)) := by
  induction a with
  | nil => cases h : splitFirstEq x <;> simp [h]
  | cons c r ih =>
    have hc : c ≠ '=' := fun h => ha (h ▸ List.mem_cons_self c r)
    have hr : '=' ∉ r := fun h => ha (List.mem_cons_of_mem c h)
    cases h : splitFirstEq x with
    | none => simp [splitFirstEq, hc, ih hr, h]
    | some p => simp [splitFirstEq, hc, ih hr, h]

theorem splitFirstEq_append_right {x b k v : List Char} (h : splitFirstEq x = some (k, v)) :
    splitFirstEq (x ++ b) = some (k, v ++ b) := by
  obtain ⟨hd, hm⟩ := splitFirstEq_decomp h
  subst hd
  rw [List.append_assoc, List.cons_append, splitFirstEq_of_decomp hm]

theorem dropWhile_append_all {p : Char → Bool} {a x : List Char}
    (h : ∀ c ∈ a, p c = true) : List.dropWhile p (a ++ x) = List.dropWhile p x := by
  induction a with
  | nil => rfl
  | cons c r ih =>
    simp only [List.cons_append, List.dropWhile_cons,
      h c (List.mem_cons_self c r), if_true]
    exact ih fun d hd => h d (List.mem_cons_of_mem c hd)

theorem dropWhile_append_of_ne {p : Char → Bool} {x b : List Char}
    (h : List.dropWhile p x ≠ []) :
    List.dropWhile p (x ++ b) = List.dropWhile p x ++ b := by
  induction x with
  | nil => simp [List.dropWhile] at h
  | cons c r ih =>
    by_cases hc : p c
    · simp only [List.dropWhile_cons, hc, if_true] at h ⊢
      simp only [List.cons_append, List.dropWhile_cons, hc, if_true]
      exact ih h
    · simp only [List.cons_append, List.dropWhile_cons, hc]
      simp [hc]

theorem rustTrim_all_ws {l : List Char} (h : ∀ c ∈ l, rustWs c) : rustTrim l = [] := by
  have h1 : List.dropWhile rustWs l = List.dropWhile rustWs ([] : List Char) := by
    simpa using dropWhile_append_all (x := ([] : List Char)) h
  simp only [rustTrim, h1]
  rfl

theorem rustTrim_append_ws_left {a x : List Char} (h : ∀ c ∈ a, rustWs c) :
    rustTrim (a ++ x) = rustTrim x := by
  simp only [rustTrim, dropWhile_append_all h]

theorem rustTrim_append_ws_right {x b : List Char} (h : ∀ c ∈ b, rustWs c) :
    rustTrim (x ++ b) = rustTrim x := by
  by_cases hx : List.dropWhile rustWs x = []
  · have hxw : ∀ c ∈ x, rustWs c := by
      intro c hc
      by_contra hw
      have := List.takeWhile_append_dropWhile (p := rustWs) (l := x)
      have hmem : c ∈ x.takeWhile rustWs ++ x.dropWhile rustWs := this.symm ▸ hc
      rcases List.mem_append.1 hmem with hm | hm
      · exact hw (List.mem_takeWhile_imp hm)
      · simp [hx] at hm
    have hall : ∀ c ∈ x ++ b, rustWs c := by
      intro c hc
      rcases List.mem_append.1 hc with hm | hm
      · exact hxw c hm
      · exact h c hm
    rw [rustTrim_all_ws hall, rustTrim_all_ws hxw]
  · simp only [rustTrim, dropWhile_append_of_ne hx]
    rw [List.reverse_append]
    rw [dropWhile_append_all (fun c hc => h c (List.mem_reverse.1 hc))]

theorem rustTrim_decomp (l : List Char) :
    ∃ a b, l = a ++ rustTrim l ++ b ∧ (∀ c ∈ a, rustWs c) ∧ (∀ c ∈ b, rustWs c) := by
  refine ⟨l.takeWhile rustWs,
    ((l.dropWhile rustWs).reverse.takeWhile rustWs).reverse, ?_, ?_, ?_⟩
  · have hm : l.dropWhile rustWs
        = rustTrim l ++ ((l.dropWhile rustWs).reverse.takeWhile rustWs).reverse := by
      calc l.dropWhile rustWs = ((l.dropWhile rustWs).reverse).reverse := by
            rw [List.reverse_reverse]
        _ = ((l.dropWhile rustWs).reverse.takeWhile rustWs ++
              (l.dropWhile rustWs).reverse.dropWhile rustWs).reverse := by
            rw [List.takeWhile_append_dropWhile]
        _ = _ := by rw [List.reverse_append]; rfl
    conv_lhs => rw [← List.takeWhile_append_dropWhile (p := rustWs) (l := l)]
    conv_lhs => rw [hm]
    rw [List.append_assoc]
  · exact fun c hc => List.mem_takeWhile_imp hc
  · exact fun c hc => List.mem_takeWhile_imp (List.mem_reverse.1 hc)

theorem rustTrim_ne_ws {l : List Char} {c : Char} (hh : l.head? = some c)
    (hc : rustWs c = false) {d : Char} (hl : l.getLast? = some d) (hd : rustWs d = false) :
    rustTrim l = l := by
  cases l with
  | nil => simp at hh
  | cons x r =>
    have hx : x = c := by simpa using hh
    subst hx
    have h1 : List.dropWhile rustWs (x :: r) = x :: r := by
      simp [List.dropWhile_cons, hc]
    rw [rustTrim, h1]
    have hrev : (x :: r).reverse.head? = some d := by
      rw [List.head?_reverse]
      exact hl
    cases hrv : (x :: r).reverse with
    | nil => simp [hrv] at hrev
    | cons y q =>
      have hy : y = d := by
        rw [hrv] at hrev
        simpa using hrev
      subst hy
      have hdw : List.dropWhile rustWs (y :: q) = y :: q := by
        simp [List.dropWhile_cons, hd]
      rw [hdw, ← hrv, List.reverse_reverse]

theorem mem_of_mem_trimQuotes {l : List Char} {c : Char} (h : c ∈ trimQuotes l) : c ∈ l := by
  simp only [trimQuotes, List.mem_reverse] at h
  have h1 := (List.dropWhile_sublist (l := (l.dropWhile (· == '"')).reverse)
    (p := (· == '"'))).mem h
  rw [List.mem_reverse] at h1
  exact (List.dropWhile_sublist (l := l) (p := (· == '"'))).mem h1

theorem trimQuotes_no_quote {l : List Char} (h : '"' ∉ l) : trimQuotes l = l := by
  have front : ∀ x : List Char, '"' ∉ x → List.dropWhile (· == '"') x = x := by
    intro x hx
    cases x with
    | nil => rfl
    | cons c r =>
      have : (c == '"') = false := by
        simp only [beq_eq_false_iff_ne, ne_eq]
        exact fun hc => hx (hc ▸ List.mem_cons_self c r)
      simp [List.dropWhile_cons, this]
  rw [trimQuotes, front l h, front _ (fun hc => h (List.mem_reverse.1 hc)),
    List.reverse_reverse]

/-! ### Lemmas about line splitting and joining -/

theorem splitNl_ne_nil (cs : List Char) : splitNl cs ≠ [] := by
  cases cs with
  | nil => simp [splitNl]
  | cons c r =>
    by_cases hc : c = '\n'
    · simp [splitNl, hc]
    · simp only [splitNl, if_neg hc]
      cases splitNl r <;> simp

theorem splitNl_append_nl {x r : List Char} (hx : '\n' ∉ x) :
    splitNl (x ++ '\n' :: r) = x :: splitNl r := by
  induction x with
  | nil => simp [splitNl]
  | cons c y ih =>
    have hc : c ≠ '\n' := fun h => hx (h ▸ List.mem_cons_self c y)
    have hy : '\n' ∉ y := fun h => hx (List.mem_cons_of_mem c h)
    rw [List.cons_append]
    simp only [splitNl, if_neg hc, ih hy]

theorem splitNl_no_nl {cs : List Char} (h : '\n' ∉ cs) : splitNl cs = [cs] := by
  induction cs with
  | nil => rfl
  | cons c r ih =>
    have hc : c ≠ '\n' := fun hh => h (hh ▸ List.mem_cons_self c r)
    have hr : '\n' ∉ r := fun hh => h (List.mem_cons_of_mem c hh)
    simp only [splitNl, if_neg hc, ih hr]

theorem splitNl_concat_nl (a : List Char) : splitNl (a ++ ['\n']) = splitNl a ++ [[]] := by
  induction a with
  | nil => rfl
  | cons c a ih =>
    by_cases hc : c = '\n'
    · subst hc
      rw [List.cons_append]
      simp only [splitNl, if_pos rfl, ih]
      rfl
    · rw [List.cons_append]
      simp only [splitNl, if_neg hc, ih]
      obtain ⟨h, t, hht⟩ : ∃ h t, splitNl a = h :: t := by
        cases hs : splitNl a with
        | nil => exact absurd hs (splitNl_ne_nil a)
        | cons h t => exact ⟨h, t, rfl⟩
      rw [hht]
      rfl

theorem splitNl_cons_nl (r : List Char) : splitNl ('\n' :: r) = [] :: splitNl r := by
  simp [splitNl]

theorem splitNl_cons_of_ne {c : Char} (hc : c ≠ '\n') {r h : List Char}
    {t : List (List Char)} (hs : splitNl r = h :: t) :
    splitNl (c :: r) = (c :: h) :: t := by
  simp only [splitNl, if_neg hc, hs]

theorem mem_splitNl_no_nl {cs x : List Char} (h : x ∈ splitNl cs) : '\n' ∉ x := by
  induction cs generalizing x with
  | nil =>
    simp only [splitNl, List.mem_singleton] at h
    simp [h]
  | cons c r ih =>
    by_cases hc : c = '\n'
    · subst hc
      rw [splitNl_cons_nl] at h
      rcases List.mem_cons.1 h with hx | hx
      · simp [hx]
      · exact ih hx
    · obtain ⟨y, t, hs⟩ : ∃ y t, splitNl r = y :: t := by
        cases hsr : splitNl r with
        | nil => exact absurd hsr (splitNl_ne_nil r)
        | cons y t => exact ⟨y, t, rfl⟩
      rw [splitNl_cons_of_ne hc hs] at h
      rcases List.mem_cons.1 h with hx | hx
      · subst hx
        intro hm
        rcases List.mem_cons.1 hm with hm | hm
        · exact hc hm.symm
        · exact ih (hs ▸ List.mem_cons_self y t) hm
      · exact ih (hs ▸ List.mem_cons_of_mem y hx)

theorem splitNl_last_of_not_nl {cs : List Char} {c : Char} (h : cs.getLast? = some c)
    (hc : c ≠ '\n') : ∃ pre l, splitNl cs = pre ++ [l] ∧ l.getLast? = some c := by
  induction cs with
  | nil => simp at h
  | cons a cs ih =>
    cases cs with
    | nil =>
      have ha : a = c := by simpa using h
      subst ha
      refine ⟨[], [a], ?_, by simp⟩
      simp only [splitNl, if_neg hc]
      rfl
    | cons b cs' =>
      have hne : b :: cs' ≠ ([] : List Char) := by simp
      have h' : (b :: cs').getLast? = some c := by
        rw [List.getLast?_cons_cons] at h
        exact h
      obtain ⟨pre, l, hs, hl⟩ := ih h'
      by_cases ha : a = '\n'
      · subst ha
        refine ⟨[] :: pre, l, ?_, hl⟩
        rw [splitNl_cons_nl, hs]
        rfl
      · cases pre with
        | nil =>
          refine ⟨[], a :: l, ?_, ?_⟩
          · rw [splitNl_cons_of_ne ha (by simpa using hs)]
            rfl
          · have hlne : l ≠ [] := by
              intro hln
              rw [hln] at hl
              simp at hl
            rw [show a :: l = [a] ++ l from rfl, List.getLast?_append_of_ne_nil _ hlne]
            exact hl
        | cons p ps =>
          refine ⟨(a :: p) :: ps, l, ?_, hl⟩
          rw [splitNl_cons_of_ne ha (by simpa using hs)]
          rfl

theorem joinNl_append (xs ys : List (List Char)) :
    joinNl (xs ++ ys) = joinNl xs ++ joinNl ys := by
  induction xs with
  | nil => rfl
  | cons x xs ih => simp [joinNl, ih]

theorem joinNl_ne_nil {xs : List (List Char)} (h : xs ≠ []) : joinNl xs ≠ [] := by
  cases xs with
  | nil => exact absurd rfl h
  | cons x xs => simp [joinNl]

theorem joinNl_getLast_nl {xs : List (List Char)} (h : xs ≠ []) :
    (joinNl xs).getLast? = some '\n' := by
  induction xs with
  | nil => exact absurd rfl h
  | cons x xs ih =>
    cases xs with
    | nil =>
      show (x ++ ['\n']).getLast? = some '\n'
      exact List.getLast?_concat x
    | cons y ys =>
      have hne : joinNl (y :: ys) ≠ [] := joinNl_ne_nil (by simp)
      show (x ++ '\n' :: joinNl (y :: ys)).getLast? = some '\n'
      rw [List.getLast?_append_of_ne_nil _ (by simp)]
      rw [show ('\n' :: joinNl (y :: ys)) = ['\n'] ++ joinNl (y :: ys) from rfl,
        List.getLast?_append_of_ne_nil _ hne]
      exact ih (by simp)

theorem splitNl_joinNl {xs : List (List Char)} (h : ∀ x ∈ xs, '\n' ∉ x) :
    splitNl (joinNl xs) = xs ++ [[]] := by
  induction xs with
  | nil => rfl
  | cons x xs ih =>
    show splitNl (x ++ '\n' :: joinNl xs) = (x :: xs) ++ [[]]
    rw [splitNl_append_nl (h x (List.mem_cons_self x xs)),
      ih fun y hy => h y (List.mem_cons_of_mem x hy)]
    rfl

theorem rustLines_joinNl {xs : List (List Char)} (hne : xs ≠ [])
    (h : ∀ x ∈ xs, '\n' ∉ x) : rustLines (joinNl xs) = xs.map stripCr := by
  have h1 : joinNl xs ≠ [] := joinNl_ne_nil hne
  have h2 : (joinNl xs).getLast? = some '\n' := joinNl_getLast_nl hne
  rw [rustLines, if_neg h1, if_pos h2, splitNl_joinNl h, List.dropLast_concat]

theorem mem_of_getLast?_eq {α : Type} {l : List α} {c : α} (h : l.getLast? = some c) : c ∈ l := by
  rcases List.mem_getLast?_eq_getLast (Option.mem_def.2 h) with ⟨hne, heq⟩
  rw [heq]
  exact List.getLast_mem hne

theorem rustLines_single {cs : List Char} (h : '\n' ∉ cs) (hne : cs ≠ []) :
    rustLines cs = [cs] := by
  have hlast : cs.getLast? ≠ some '\n' := by
    intro hh
    exact h (mem_of_getLast?_eq hh)
  rw [rustLines, if_neg hne, if_neg hlast, splitNl_no_nl h]
  rfl

theorem rustLines_ne_nil {cs : List Char} (h : cs ≠ []) : rustLines cs ≠ [] := by
  rw [rustLines, if_neg h]
  by_cases hl : cs.getLast? = some '\n'
  · rw [if_pos hl]
    obtain ⟨a, ha⟩ : ∃ a, cs = a ++ ['\n'] := by
      refine ⟨cs.dropLast, ?_⟩
      conv_lhs => rw [← List.dropLast_append_getLast h]
      congr 1
      have : cs.getLast h = '\n' := by
        have := List.getLast?_eq_getLast cs h
        rw [hl] at this
        exact (Option.some.injEq .. ▸ this.symm)
      rw [this]
    rw [ha, splitNl_concat_nl, List.dropLast_concat]
    intro hnil
    exact splitNl_ne_nil a (by simpa using hnil)
  · rw [if_neg hl]
    simp

theorem rustLines_last_of_not_nl {cs : List Char} (h : cs ≠ [])
    (hl : ¬cs.getLast? = some '\n') :
    ∃ pre l, rustLines cs = pre ++ [l] ∧ l ≠ [] := by
  obtain ⟨c, hc⟩ : ∃ c, cs.getLast? = some c := by
    cases hcs : cs.getLast? with
    | none => exact absurd (List.getLast?_eq_none_iff.1 hcs) h
    | some c => exact ⟨c, rfl⟩
  have hcnl : c ≠ '\n' := fun hh => hl (hh ▸ hc)
  obtain ⟨pre, l, hs, hlast⟩ := splitNl_last_of_not_nl hc hcnl
  refine ⟨(pre.map stripCr), l, ?_, ?_⟩
  · rw [rustLines, if_neg h, if_neg hl, hs, List.dropLast_concat, List.getLastD_concat]
  · intro hln
    rw [hln] at hlast
    simp at hlast

theorem mem_stripCr {l : List Char} {c : Char} (h : c ∈ stripCr l) : c ∈ l := by
  rw [stripCr] at h
  split at h
  · exact (List.dropLast_sublist l).mem h
  · exact h

theorem stripCr_of_getLast {l : List Char} {c : Char} (h : l.getLast? = some c)
    (hc : c ≠ '\r') : stripCr l = l := by
  rw [stripCr, if_neg]
  intro hh
  rw [h] at hh
  exact hc (by simpa using hh)

theorem mem_rustLines_no_nl {cs x : List Char} (h : x ∈ rustLines cs) : '\n' ∉ x := by
  rw [rustLines] at h
  split at h
  · simp at h
  · split at h
    · obtain ⟨y, hy, hyx⟩ := List.mem_map.1 h
      have hysub : y ∈ splitNl cs := (List.dropLast_sublist (splitNl cs)).mem hy
      intro hm
      exact mem_splitNl_no_nl hysub (mem_stripCr (hyx ▸ hm))
    · rcases List.mem_append.1 h with hm | hm
      · obtain ⟨y, hy, hyx⟩ := List.mem_map.1 hm
        have hysub : y ∈ splitNl cs := (List.dropLast_sublist (splitNl cs)).mem hy
        intro hmm
        exact mem_splitNl_no_nl hysub (mem_stripCr (hyx ▸ hmm))
      · have hx : x = (splitNl cs).getLastD [] := by simpa using hm
        obtain ⟨y, hy⟩ : ∃ y, (splitNl cs).getLast? = some y := by
          cases hgl : (splitNl cs).getLast? with
          | none => exact absurd (List.getLast?_eq_none_iff.1 hgl) (splitNl_ne_nil cs)
          | some y => exact ⟨y, rfl⟩
        have hxy : x = y := by
          rw [hx, List.getLastD_eq_getLast?, hy]
          rfl
        exact hxy ▸ mem_splitNl_no_nl (mem_of_getLast?_eq hy)

/-! ### Lemmas about `process_env_text` -/

theorem procLine_no_eq {l : List Char} (h : '=' ∉ l) : procLine l = l := by
  rw [procLine, splitFirstEq_eq_none.2 h]

theorem procLine_ne_nil {l : List Char} (h : l ≠ []) : procLine l ≠ [] := by
  rw [procLine]
  cases hs : splitFirstEq l with
  | none => exact h
  | some kv => simp

theorem procLine_no_nl {l : List Char} (h : '\n' ∉ l) : '\n' ∉ procLine l := by
  rw [procLine]
  cases hs : splitFirstEq l with
  | none => exact h
  | some kv =>
    obtain ⟨k, v⟩ := kv
    obtain ⟨hd, _⟩ := splitFirstEq_decomp hs
    intro hm
    rcases List.mem_append.1 hm with hm | hm
    · exact h (hd ▸ List.mem_append.2 (Or.inl hm))
    · rcases List.mem_cons.1 hm with hm | hm
      · exact absurd hm.symm (by decide)
      · exact h (hd ▸ List.mem_append.2 (Or.inr (List.mem_cons_of_mem _
          (mem_of_mem_trimQuotes hm))))

theorem contains_iff_mem {l : List Char} {c : Char} : l.contains c = true ↔ c ∈ l := by
  simp [List.contains]

/-- The content of the plain-text `Env` rendering is exactly every line of
the payload processed by `procLine` and newline-terminated: the popped
trailing newline of `process_env_text` is always restored by the guaranteed
trailing newline of the `Env` branch. -/
theorem plain_env_content_joinNl {cs : List Char} (h : cs.contains '=' = true) :
    plain_env_content cs = joinNl ((rustLines cs).map procLine) := by
  have hmem : '=' ∈ cs := contains_iff_mem.1 h
  have hne : cs ≠ [] := by
    intro hc
    rw [hc] at hmem
    simp at hmem
  have hlne : rustLines cs ≠ [] := rustLines_ne_nil hne
  have hmapne : (rustLines cs).map procLine ≠ [] := by
    intro hm
    exact hlne (List.map_eq_nil_iff.1 hm)
  have hrlast : (joinNl ((rustLines cs).map procLine)).getLast? = some '\n' :=
    joinNl_getLast_nl hmapne
  rw [plain_env_content, if_pos h]
  by_cases hend : cs.getLast? = some '\n'
  · have hcond : ¬((joinNl ((rustLines cs).map procLine)).getLast? = some '\n' ∧
        ¬cs.getLast? = some '\n') := by
      intro hc
      exact hc.2 hend
    rw [process_env_text, if_neg hcond, if_pos hrlast]
  · obtain ⟨pre, l, hsplit, hlnen⟩ := rustLines_last_of_not_nl hne hend
    have hlin : l ∈ rustLines cs := hsplit ▸ List.mem_append.2 (Or.inr (by simp))
    have hlnl : '\n' ∉ l := mem_rustLines_no_nl hlin
    have hynl : '\n' ∉ procLine l := procLine_no_nl hlnl
    have hyne : procLine l ≠ [] := procLine_ne_nil hlnen
    have hmap : (rustLines cs).map procLine = pre.map procLine ++ [procLine l] := by
      rw [hsplit, List.map_append]
      rfl
    have hjoin : joinNl ((rustLines cs).map procLine)
        = (joinNl (pre.map procLine) ++ procLine l) ++ ['\n'] := by
      rw [hmap, joinNl_append]
      show _ ++ (procLine l ++ '\n' :: joinNl []) = _
      rw [joinNl]
      simp
    have hdrop : (joinNl ((rustLines cs).map procLine)).dropLast
        = joinNl (pre.map procLine) ++ procLine l := by
      rw [hjoin, List.dropLast_concat]
    have hplast : ∃ c, (joinNl (pre.map procLine) ++ procLine l).getLast? = some c ∧
        c ≠ '\n' := by
      obtain ⟨c, hc⟩ : ∃ c, (procLine l).getLast? = some c := by
        cases hgl : (procLine l).getLast? with
        | none => exact absurd (List.getLast?_eq_none_iff.1 hgl) hyne
        | some c => exact ⟨c, rfl⟩
      refine ⟨c, ?_, ?_⟩
      · rw [List.getLast?_append_of_ne_nil _ hyne, hc]
      · intro hcn
        exact hynl (hcn ▸ mem_of_getLast?_eq hc)
    obtain ⟨c, hc, hcn⟩ := hplast
    have hcond : (joinNl ((rustLines cs).map procLine)).getLast? = some '\n' ∧
        ¬cs.getLast? = some '\n' := ⟨hrlast, hend⟩
    rw [process_env_text, if_pos hcond, hdrop]
    have hnotnl : ¬(joinNl (pre.map procLine) ++ procLine l).getLast? = some '\n' := by
      rw [hc]
      intro hh
      exact hcn (by simpa using hh)
    rw [if_neg hnotnl, hjoin]

/-- Env rendering of a single-line payload containing `'='`:
`key=value` with all surrounding quotes trimmed from the value, plus the
guaranteed trailing newline. -/
theorem plain_env_content_single {cs k v : List Char} (hnl : '\n' ∉ cs)
    (hs : splitFirstEq cs = some (k, v)) :
    plain_env_content cs = k ++ '=' :: trimQuotes v ++ ['\n'] := by
  obtain ⟨hd, _⟩ := splitFirstEq_decomp hs
  have hne : cs ≠ [] := by
    rw [hd]
    simp
  have hcont : cs.contains '=' = true := contains_iff_mem.2 (by
    rw [hd]
    exact List.mem_append.2 (Or.inr (List.mem_cons_self _ _)))
  rw [plain_env_content_joinNl hcont, rustLines_single hnl hne]
  show (procLine cs) ++ '\n' :: joinNl [] = _
  rw [joinNl, procLine, hs]

/-- Folding a step function that ignores the filtered-out elements equals
folding over the filtered list. -/
theorem foldl_filter_eq {α β : Type} (f : β → α → β) (p : α → Bool)
    (hf : ∀ b a, p a = false → f b a = b) :
    ∀ (ls : List α) (b : β), ls.foldl f b = (ls.filter p).foldl f b := by
  intro ls
  induction ls with
  | nil => intro b; rfl
  | cons a ls ih =>
    intro b
    by_cases hp : p a = true
    · rw [List.foldl_cons, List.filter_cons, if_pos hp, List.foldl_cons, ih]
    · have hp' : p a = false := by
        cases hpa : p a with
        | true => exact absurd hpa hp
        | false => rfl
      rw [List.foldl_cons, hf b a hp', List.filter_cons, if_neg (by simp [hp']), ih]

theorem parse_env_line_no_eq {m : List (List Char × List Char)} {l : List Char}
    (h : l.contains '=' = false) : parse_env_line m l = m := by
  have hmem : '=' ∉ l := by
    intro hm
    rw [contains_iff_mem.2 hm] at h
    cases h
  have htm : '=' ∉ rustTrim l := by
    intro hm
    obtain ⟨a, b, hab, _, _⟩ := rustTrim_decomp l
    exact hmem (hab ▸ List.mem_append.2 (Or.inl (List.mem_append.2 (Or.inr hm))))
  rw [parse_env_line]
  by_cases h1 : rustTrim l = []
  · simp [h1]
  · rw [if_neg h1]
    by_cases h2 : (rustTrim l).head? = some '#'
    · rw [if_pos h2]
    · rw [if_neg h2, splitFirstEq_eq_none.2 htm]

theorem csv_row_step_no_eq {acc : List (List Char × List Char)} {l : List Char}
    (h : l.contains '=' = false) : csv_row_step acc l = acc := by
  have hmem : '=' ∉ l := by
    intro hm
    rw [contains_iff_mem.2 hm] at h
    cases h
  have htm : '=' ∉ rustTrim l := by
    intro hm
    obtain ⟨a, b, hab, _, _⟩ := rustTrim_decomp l
    exact hmem (hab ▸ List.mem_append.2 (Or.inl (List.mem_append.2 (Or.inr hm))))
  rw [csv_row_step]
  by_cases h1 : rustTrim l = []
  · simp [h1]
  · rw [if_neg h1]
    by_cases h2 : (rustTrim l).head? = some '#'
    · rw [if_pos h2]
    · rw [if_neg h2, splitFirstEq_eq_none.2 htm]

theorem rustWs_eq_false : rustWs '=' = false := by decide

theorem parse_env_line_eq_spec (m : List (List Char × List Char)) (l : List Char) :
    parse_env_line m l = spec_parse_line m l := by
  obtain ⟨a, b, hab, hwa, hwb⟩ := rustTrim_decomp l
  have haeq : '=' ∉ a := fun hm => absurd (hwa '=' hm) (by decide)
  have hbeq : '=' ∉ b := fun hm => absurd (hwb '=' hm) (by decide)
  cases hse : splitFirstEq (rustTrim l) with
  | none =>
    have htm : '=' ∉ rustTrim l := splitFirstEq_eq_none.1 hse
    have hl : '=' ∉ l := by
      intro hm
      rw [hab] at hm
      rcases List.mem_append.1 hm with hm | hm
      · rcases List.mem_append.1 hm with hm | hm
        · exact haeq hm
        · exact htm hm
      · exact hbeq hm
    have hsl : splitFirstEq l = none := splitFirstEq_eq_none.2 hl
    simp only [spec_parse_line, hsl]
    simp only [parse_env_line]
    by_cases h1 : rustTrim l = []
    · simp [h1]
    · rw [if_neg h1]
      by_cases h2 : (rustTrim l).head? = some '#'
      · rw [if_pos h2]
      · rw [if_neg h2, hse]
  | some kv =>
    obtain ⟨k1, v1⟩ := kv
    obtain ⟨htd, hkm⟩ := splitFirstEq_decomp hse
    have htne : rustTrim l ≠ [] := by
      rw [htd]
      simp
    have hsl : splitFirstEq l = some (a ++ k1, v1 ++ b) := by
      conv_lhs => rw [hab, List.append_assoc]
      rw [splitFirstEq_append_left haeq, splitFirstEq_append_right hse]
      rfl
    simp only [parse_env_line, spec_parse_line, hsl, if_neg htne]
    by_cases h2 : (rustTrim l).head? = some '#'
    · rw [if_pos h2, if_pos h2]
    · rw [if_neg h2, if_neg h2, hse]
      rw [rustTrim_append_ws_left hwa, rustTrim_append_ws_right hwb]

theorem csv_row_step_eq_spec (acc : List (List Char × List Char)) (l : List Char) :
    csv_row_step acc l = spec_csv_line acc l := by
  obtain ⟨a, b, hab, hwa, hwb⟩ := rustTrim_decomp l
  have haeq : '=' ∉ a := fun hm => absurd (hwa '=' hm) (by decide)
  have hbeq : '=' ∉ b := fun hm => absurd (hwb '=' hm) (by decide)
  cases hse : splitFirstEq (rustTrim l) with
  | none =>
    have htm : '=' ∉ rustTrim l := splitFirstEq_eq_none.1 hse
    have hl : '=' ∉ l := by
      intro hm
      rw [hab] at hm
      rcases List.mem_append.1 hm with hm | hm
      · rcases List.mem_append.1 hm with hm | hm
        · exact haeq hm
        · exact htm hm
      · exact hbeq hm
    have hsl : splitFirstEq l = none := splitFirstEq_eq_none.2 hl
    simp only [spec_csv_line, hsl]
    simp only [csv_row_step]
    by_cases h1 : rustTrim l = []
    · simp [h1]
    · rw [if_neg h1]
      by_cases h2 : (rustTrim l).head? = some '#'
      · rw [if_pos h2]
      · rw [if_neg h2, hse]
  | some kv =>
    obtain ⟨k1, v1⟩ := kv
    obtain ⟨htd, hkm⟩ := splitFirstEq_decomp hse
    have htne : rustTrim l ≠ [] := by
      rw [htd]
      simp
    have hsl : splitFirstEq l = some (a ++ k1, v1 ++ b) := by
      conv_lhs => rw [hab, List.append_assoc]
      rw [splitFirstEq_append_left haeq, splitFirstEq_append_right hse]
      rfl
    simp only [csv_row_step, spec_csv_line, hsl, if_neg htne]
    by_cases h2 : (rustTrim l).head? = some '#'
    · rw [if_pos h2, if_pos h2]
    · rw [if_neg h2, if_neg h2, hse]
      rw [rustTrim_append_ws_left hwa, rustTrim_append_ws_right hwb]

/-! ### The JSON parser consumes no `'='` outside string literals -/

/-- An acceptable consumed prefix: it contains a quote, or no equals sign. -/
def OKp (p : List Char) : Prop := '"' ∈ p ∨ '=' ∉ p

/-- `r` is reachable from `cs` by consuming an acceptable prefix. -/
def Consum (cs r : List Char) : Prop := ∃ p, cs = p ++ r ∧ OKp p

theorem okp_nil : OKp [] := Or.inr (by simp)

theorem okp_append {a b : List Char} (ha : OKp a) (hb : OKp b) : OKp (a ++ b) := by
  rcases ha with ha | ha
  · exact Or.inl (List.mem_append.2 (Or.inl ha))
  · rcases hb with hb | hb
    · exact Or.inl (List.mem_append.2 (Or.inr hb))
    · refine Or.inr ?_
      intro hm
      rcases List.mem_append.1 hm with hm | hm
      · exact ha hm
      · exact hb hm

theorem okp_cons {c : Char} {p : List Char} (hc : c ≠ '=') (hp : OKp p) : OKp (c :: p) := by
  rcases hp with hp | hp
  · exact Or.inl (List.mem_cons_of_mem c hp)
  · refine Or.inr ?_
    intro hm
    rcases List.mem_cons.1 hm with hm | hm
    · exact hc hm.symm
    · exact hp hm

theorem consum_refl (cs : List Char) : Consum cs cs := ⟨[], rfl, okp_nil⟩

theorem consum_trans {a b c : List Char} (h1 : Consum a b) (h2 : Consum b c) :
    Consum a c := by
  obtain ⟨p, hp, hop⟩ := h1
  obtain ⟨q, hq, hoq⟩ := h2
  exact ⟨p ++ q, by rw [hp, hq, List.append_assoc], okp_append hop hoq⟩

theorem consum_cons {c : Char} {r : List Char} (hc : c ≠ '=') : Consum (c :: r) r :=
  ⟨[c], rfl, okp_cons hc okp_nil⟩

theorem skipWs_decomp (cs : List Char) :
    ∃ w, cs = w ++ skipWs cs ∧ ∀ c ∈ w, jsonWs c := by
  induction cs with
  | nil => exact ⟨[], rfl, by simp⟩
  | cons c r ih =>
    by_cases hc : jsonWs c
    · obtain ⟨w, hw, hws⟩ := ih
      refine ⟨c :: w, ?_, ?_⟩
      · rw [skipWs, if_pos hc, List.cons_append, ← hw]
      · intro d hd
        rcases List.mem_cons.1 hd with hd | hd
        · exact hd ▸ hc
        · exact hws d hd
    · refine ⟨[], ?_, by simp⟩
      rw [skipWs, if_neg hc]
      rfl

theorem jsonWs_ne_eq {c : Char} (h : jsonWs c = true) : c ≠ '=' := by
  intro hc
  subst hc
  simp [jsonWs] at h

theorem jsonWs_ne_quote {c : Char} (h : jsonWs c = true) : c ≠ '"' := by
  intro hc
  subst hc
  simp [jsonWs] at h

theorem okp_ws {w : List Char} (h : ∀ c ∈ w, jsonWs c) : OKp w := by
  refine Or.inr ?_
  intro hm
  exact jsonWs_ne_eq (h '=' hm) rfl

theorem consum_skipWs (cs : List Char) : Consum cs (skipWs cs) := by
  obtain ⟨w, hw, hws⟩ := skipWs_decomp cs
  exact ⟨w, hw, okp_ws hws⟩

theorem parseStringBody_suffix :
    ∀ (n : Nat) (cs s r : List Char), parseStringBody n cs = some (s, r) →
      ∃ p, cs = p ++ r := by
  intro n
  induction n with
  | zero =>
    intro cs s r h
    simp [parseStringBody] at h
  | succ n ih =>
    intro cs s r h
    cases cs with
    | nil => simp [parseStringBody] at h
    | cons c t =>
      simp only [parseStringBody] at h
      by_cases hq : c = '"'
      · rw [if_pos hq] at h
        obtain ⟨h1, h2⟩ : ([] : List Char) = s ∧ t = r := by
          simpa using h
        refine ⟨[c], ?_⟩
        rw [h2]
        rfl
      · rw [if_neg hq] at h
        by_cases hb : c = '\\'
        · rw [if_pos hb] at h
          cases t with
          | nil => simp at h
          | cons e r2 =>
            dsimp only at h
            by_cases hu : e = 'u'
            · rw [if_pos hu] at h
              cases r2 with
              | nil => simp at h
              | cons a r2 =>
                cases r2 with
                | nil => simp at h
                | cons b2 r2 =>
                  cases r2 with
                  | nil => simp at h
                  | cons c2 r2 =>
                    cases r2 with
                    | nil => simp at h
                    | cons d r3 =>
                      dsimp only at h
                      split at h
                      · rcases hmap : parseStringBody n r3 with _ | ⟨s', r'⟩
                        · rw [hmap] at h
                          simp at h
                        · rw [hmap] at h
                          simp only [Option.map_some', Option.some.injEq,
                            Prod.mk.injEq] at h
                          obtain ⟨p, hp⟩ := ih r3 s' r' hmap
                          refine ⟨c :: e :: a :: b2 :: c2 :: d :: p, ?_⟩
                          rw [← h.2, hp]
                          rfl
                      · simp at h
            · rw [if_neg hu] at h
              cases hesc : escCharOf e with
              | none =>
                rw [hesc] at h
                simp at h
              | some ch =>
                rw [hesc] at h
                rcases hmap : parseStringBody n r2 with _ | ⟨s', r'⟩
                · rw [hmap] at h
                  simp at h
                · rw [hmap] at h
                  simp only [Option.map_some', Option.some.injEq, Prod.mk.injEq] at h
                  obtain ⟨p, hp⟩ := ih r2 s' r' hmap
                  refine ⟨c :: e :: p, ?_⟩
                  rw [← h.2, hp]
                  rfl
        · rw [if_neg hb] at h
          by_cases hctl : c.toNat < 32
          · rw [if_pos hctl] at h
            simp at h
          · rw [if_neg hctl] at h
            rcases hmap : parseStringBody n t with _ | ⟨s', r'⟩
            · rw [hmap] at h
              simp at h
            · rw [hmap] at h
              simp only [Option.map_some', Option.some.injEq, Prod.mk.injEq] at h
              obtain ⟨p, hp⟩ := ih t s' r' hmap
              refine ⟨c :: p, ?_⟩
              rw [← h.2, hp]
              rfl


theorem parseNumber_consum {cs : List Char} {v : JsonVal} {r : List Char}
    (h : parseNumber cs = some (v, r)) : Consum cs r := by
  simp only [parseNumber] at h
  split at h
  · simp only [Option.some.injEq, Prod.mk.injEq] at h
    refine ⟨cs.takeWhile numChar, ?_, Or.inr ?_⟩
    · rw [← h.2, List.takeWhile_append_dropWhile]
    · intro hm
      have := List.mem_takeWhile_imp hm
      simp [numChar] at this
  · simp at h

theorem parse_consum : ∀ n : Nat,
    (∀ cs v r, parseValue n cs = some (v, r) → Consum cs r) ∧
    (∀ cs vs r, parseElems n cs = some (vs, r) → Consum cs r) ∧
    (∀ cs ms r, parseMembers n cs = some (ms, r) → Consum cs r) := by
  intro n
  induction n with
  | zero =>
    refine ⟨?_, ?_, ?_⟩ <;> intro cs a r h <;>
      simp [parseValue, parseElems, parseMembers] at h
  | succ n ih =>
    obtain ⟨ihv, ihe, ihm⟩ := ih
    refine ⟨?_, ?_, ?_⟩
    · intro cs v r h
      simp only [parseValue] at h
      split at h
      · exact absurd h (by simp)
      · rename_i r1 heq
        have h0 : Consum cs ('\x7b' :: r1) := heq ▸ consum_skipWs cs
        have h1 : Consum cs r1 :=
          consum_trans h0 (consum_cons (by decide))
        split at h
        · rename_i r2 heq2
          simp only [Option.some.injEq, Prod.mk.injEq] at h
          have h2 : Consum r1 ('\x7d' :: r2) := heq2 ▸ consum_skipWs r1
          have h3 : Consum r1 r2 := consum_trans h2 (consum_cons (by decide))
          exact h.2 ▸ consum_trans h1 h3
        · rcases hm : parseMembers n r1 with _ | ⟨ms, r'⟩
          · rw [hm] at h
            simp at h
          · rw [hm] at h
            simp only [Option.map_some', Option.some.injEq, Prod.mk.injEq] at h
            exact h.2 ▸ consum_trans h1 (ihm _ _ _ hm)
      · rename_i r1 heq
        have h0 : Consum cs ('[' :: r1) := heq ▸ consum_skipWs cs
        have h1 : Consum cs r1 :=
          consum_trans h0 (consum_cons (by decide))
        split at h
        · rename_i r2 heq2
          simp only [Option.some.injEq, Prod.mk.injEq] at h
          have h2 : Consum r1 (']' :: r2) := heq2 ▸ consum_skipWs r1
          have h3 : Consum r1 r2 := consum_trans h2 (consum_cons (by decide))
          exact h.2 ▸ consum_trans h1 h3
        · rcases hm : parseElems n r1 with _ | ⟨vs, r'⟩
          · rw [hm] at h
            simp at h
          · rw [hm] at h
            simp only [Option.map_some', Option.some.injEq, Prod.mk.injEq] at h
            exact h.2 ▸ consum_trans h1 (ihe _ _ _ hm)
      · rename_i r1 heq
        rcases hm : parseStringBody (r1.length + 1) r1 with _ | ⟨s, r'⟩
        · rw [hm] at h
          simp at h
        · rw [hm] at h
          simp only [Option.map_some', Option.some.injEq, Prod.mk.injEq] at h
          obtain ⟨p, hp⟩ := parseStringBody_suffix _ _ _ _ hm
          obtain ⟨w, hw, hws⟩ := skipWs_decomp cs
          refine h.2 ▸ ⟨w ++ '"' :: p, ?_, Or.inl ?_⟩
          · rw [hw, heq, hp]
            simp
          · exact List.mem_append.2 (Or.inr (List.mem_cons_self _ _))
      · rename_i r1 heq
        split at h
        · rename_i htake
          simp only [Option.some.injEq, Prod.mk.injEq] at h
          have h0 : Consum cs ('t' :: r1) := heq ▸ consum_skipWs cs
          have h1 : Consum cs r1 := consum_trans h0 (consum_cons (by decide))
          have h2 : Consum r1 (r1.drop 3) := by
            refine ⟨r1.take 3, (List.take_append_drop 3 r1).symm, Or.inr ?_⟩
            rw [htake]
            decide
          exact h.2 ▸ consum_trans h1 h2
        · exact absurd h (by simp)
      · rename_i r1 heq
        split at h
        · rename_i htake
          simp only [Option.some.injEq, Prod.mk.injEq] at h
          have h0 : Consum cs ('f' :: r1) := heq ▸ consum_skipWs cs
          have h1 : Consum cs r1 := consum_trans h0 (consum_cons (by decide))
          have h2 : Consum r1 (r1.drop 4) := by
            refine ⟨r1.take 4, (List.take_append_drop 4 r1).symm, Or.inr ?_⟩
            rw [htake]
            decide
          exact h.2 ▸ consum_trans h1 h2
        · exact absurd h (by simp)
      · rename_i r1 heq
        split at h
        · rename_i htake
          simp only [Option.some.injEq, Prod.mk.injEq] at h
          have h0 : Consum cs ('n' :: r1) := heq ▸ consum_skipWs cs
          have h1 : Consum cs r1 := consum_trans h0 (consum_cons (by decide))
          have h2 : Consum r1 (r1.drop 3) := by
            refine ⟨r1.take 3, (List.take_append_drop 3 r1).symm, Or.inr ?_⟩
            rw [htake]
            decide
          exact h.2 ▸ consum_trans h1 h2
        · exact absurd h (by simp)
      · rename_i c r1 _ _ _ _ _ _ heq
        have h0 : Consum cs (c :: r1) := heq ▸ consum_skipWs cs
        exact consum_trans h0 (parseNumber_consum h)
    · intro cs vs r h
      simp only [parseElems] at h
      split at h
      · exact absurd h (by simp)
      · rename_i v1 r1 heq1
        have hc1 : Consum cs r1 := ihv _ _ _ heq1
        split at h
        · rename_i r2 heq2
          have h2 : Consum r1 (',' :: r2) := heq2 ▸ consum_skipWs r1
          have h3 : Consum r1 r2 := consum_trans h2 (consum_cons (by decide))
          rcases hm : parseElems n r2 with _ | ⟨vs', r'⟩
          · rw [hm] at h
            simp at h
          · rw [hm] at h
            simp only [Option.map_some', Option.some.injEq, Prod.mk.injEq] at h
            exact h.2 ▸ consum_trans hc1 (consum_trans h3 (ihe _ _ _ hm))
        · rename_i r2 heq2
          simp only [Option.some.injEq, Prod.mk.injEq] at h
          have h2 : Consum r1 (']' :: r2) := heq2 ▸ consum_skipWs r1
          have h3 : Consum r1 r2 := consum_trans h2 (consum_cons (by decide))
          exact h.2 ▸ consum_trans hc1 h3
        · exact absurd h (by simp)
    · intro cs ms r h
      simp only [parseMembers] at h
      split at h
      · rename_i r1 heq
        split at h
        · exact absurd h (by simp)
        · rename_i k r2 hkey
          split at h
          · rename_i r3 heq3
            split at h
            · exact absurd h (by simp)
            · rename_i v1 r4 hval
              have hcs2 : Consum cs r2 := by
                obtain ⟨p, hp⟩ := parseStringBody_suffix _ _ _ _ hkey
                obtain ⟨w, hw, hws⟩ := skipWs_decomp cs
                refine ⟨w ++ '"' :: p, ?_, Or.inl ?_⟩
                · rw [hw, heq, hp]
                  simp
                · exact List.mem_append.2 (Or.inr (List.mem_cons_self _ _))
              have h23 : Consum r2 r3 := by
                have := heq3 ▸ consum_skipWs r2
                exact consum_trans this (consum_cons (by decide))
              have h34 : Consum r3 r4 := ihv _ _ _ hval
              have hcs4 : Consum cs r4 :=
                consum_trans hcs2 (consum_trans h23 h34)
              split at h
              · rename_i r5 heq5
                have h45 : Consum r4 r5 := by
                  have := heq5 ▸ consum_skipWs r4
                  exact consum_trans this (consum_cons (by decide))
                rcases hm : parseMembers n r5 with _ | ⟨ms', r'⟩
                · rw [hm] at h
                  simp at h
                · rw [hm] at h
                  simp only [Option.map_some', Option.some.injEq, Prod.mk.injEq] at h
                  exact h.2 ▸ consum_trans hcs4 (consum_trans h45 (ihm _ _ _ hm))
              · rename_i r5 heq5
                simp only [Option.some.injEq, Prod.mk.injEq] at h
                have h45 : Consum r4 r5 := by
                  have := heq5 ▸ consum_skipWs r4
                  exact consum_trans this (consum_cons (by decide))
                exact h.2 ▸ consum_trans hcs4 h45
              · exact absurd h (by simp)
          · exact absurd h (by simp)
      · exact absurd h (by simp)

/-- A quote-free text containing `'='` is never valid JSON: every `'='`
would have to sit inside a string literal. -/
theorem jsonParse_none_noquote {cs : List Char} (hq : '"' ∉ cs) (he : '=' ∈ cs) :
    jsonParse cs = none := by
  rw [jsonParse]
  rcases hp : parseValue (cs.length + 1) cs with _ | ⟨v, r⟩
  · rfl
  · obtain ⟨p, hpr, hok⟩ := (parse_consum (cs.length + 1)).1 cs v r hp
    have hqp : '"' ∉ p := fun hm => hq (hpr ▸ List.mem_append.2 (Or.inl hm))
    have hep : '=' ∉ p := by
      rcases hok with hok | hok
      · exact absurd hok hqp
      · exact hok
    have her : '=' ∈ r := by
      rw [hpr] at he
      rcases List.mem_append.1 he with hm | hm
      · exact absurd hm hep
      · exact hm
    obtain ⟨w, hw, hws⟩ := skipWs_decomp r
    have hsw : '=' ∈ skipWs r := by
      rw [hw] at her
      rcases List.mem_append.1 her with hm | hm
      · exact absurd (hws '=' hm) (by decide)
      · exact hm
    have hne : skipWs r ≠ [] := List.ne_nil_of_mem hsw
    dsimp only
    rw [if_neg hne]

/-! ### The env round trip -/

theorem mem_joinNl {xs : List (List Char)} {c : Char} (h : c ∈ joinNl xs) :
    c = '\n' ∨ ∃ x ∈ xs, c ∈ x := by
  induction xs with
  | nil => simp [joinNl] at h
  | cons x xs ih =>
    rw [joinNl] at h
    rcases List.mem_append.1 h with hm | hm
    · exact Or.inr ⟨x, List.mem_cons_self x xs, hm⟩
    · rcases List.mem_cons.1 hm with hm | hm
      · exact Or.inl hm
      · rcases ih hm with hm | ⟨y, hy, hcy⟩
        · exact Or.inl hm
        · exact Or.inr ⟨y, List.mem_cons_of_mem x hy, hcy⟩

theorem length_dropWhile_le' (p : Char → Bool) (l : List Char) :
    (l.dropWhile p).length ≤ l.length :=
  (List.dropWhile_sublist p).length_le

theorem rustTrim_eq_head_last {l : List Char} (h : rustTrim l = l) (hne : l ≠ []) :
    (∃ c, l.head? = some c ∧ rustWs c = false) ∧
      (∃ d, l.getLast? = some d ∧ rustWs d = false) := by
  have hlen1 : (rustTrim l).length ≤ (l.dropWhile rustWs).length := by
    rw [rustTrim, List.length_reverse]
    calc ((l.dropWhile rustWs).reverse.dropWhile rustWs).length
        ≤ (l.dropWhile rustWs).reverse.length := length_dropWhile_le' _ _
      _ = (l.dropWhile rustWs).length := List.length_reverse _
  have hdw : l.dropWhile rustWs = l := by
    have hle : l.length ≤ (l.dropWhile rustWs).length := by
      calc l.length = (rustTrim l).length := by rw [h]
        _ ≤ _ := hlen1
    exact (List.dropWhile_sublist rustWs).eq_of_length
      (Nat.le_antisymm (List.Sublist.length_le (List.dropWhile_sublist rustWs)) hle)
  constructor
  · cases l with
    | nil => exact absurd rfl hne
    | cons c r =>
      refine ⟨c, rfl, ?_⟩
      by_contra hw
      have hwc : rustWs c = true := by
        cases hx : rustWs c with
        | true => rfl
        | false => exact absurd hx hw
      rw [List.dropWhile_cons, if_pos hwc] at hdw
      have := congrArg List.length hdw
      have hle := length_dropWhile_le' rustWs r
      simp at this
      omega
  · have hrev : l.reverse.dropWhile rustWs = l.reverse := by
      have : rustTrim l = (l.reverse.dropWhile rustWs).reverse := by
        rw [rustTrim, hdw]
      rw [h] at this
      calc l.reverse.dropWhile rustWs
          = ((l.reverse.dropWhile rustWs).reverse).reverse := by
            rw [List.reverse_reverse]
        _ = l.reverse := by rw [← this]
    cases hlr : l.reverse with
    | nil =>
      exact absurd (by simpa using congrArg List.reverse hlr) hne
    | cons d q =>
      refine ⟨d, ?_, ?_⟩
      · rw [← List.head?_reverse, hlr]
        rfl
      · by_contra hw
        have hwd : rustWs d = true := by
          cases hx : rustWs d with
          | true => rfl
          | false => exact absurd hx hw
        rw [hlr, List.dropWhile_cons, if_pos hwd] at hrev
        have := congrArg List.length hrev
        have hle := length_dropWhile_le' rustWs q
        simp at this
        omega

theorem insertMap_not_mem {m : List (List Char × List Char)} {k v : List Char}
    (h : k ∉ m.map Prod.fst) : insertMap m k v = m ++ [(k, v)] := by
  rw [insertMap, if_neg]
  intro hany
  obtain ⟨p, hp, hpk⟩ := List.any_eq_true.1 hany
  exact h (List.mem_map.2 ⟨p, hp, by simpa using hpk⟩)

/-- The env line of a well-behaved entry. -/
theorem entry_line_facts {k v : List Char} (hg : goodEntry (k, v)) :
    rustTrim (k ++ '=' :: v) = k ++ '=' :: v ∧
      (k ++ '=' :: v).head? ≠ some '#' ∧
      splitFirstEq (k ++ '=' :: v) = some (k, v) ∧
      '\n' ∉ (k ++ '=' :: v) ∧
      (∃ d, (k ++ '=' :: v).getLast? = some d ∧ d ≠ '\r') := by
  obtain ⟨hk, htk, htv, hek, hnk, hqk, hev, hnv, hqv, hhk⟩ := hg
  obtain ⟨⟨c, hc, hcw⟩, ⟨d, hdl, hdw⟩⟩ := rustTrim_eq_head_last htk hk
  have hhead : (k ++ '=' :: v).head? = some c := by
    cases k with
    | nil => exact absurd rfl hk
    | cons a r =>
      have : a = c := by simpa using hc
      rw [this]
      rfl
  have hlast : ∃ d, (k ++ '=' :: v).getLast? = some d ∧ rustWs d = false := by
    cases v with
    | nil =>
      refine ⟨'=', ?_, by decide⟩
      exact List.getLast?_concat k
    | cons b q =>
      obtain ⟨⟨c2, hc2, hc2w⟩, ⟨d2, hd2, hd2w⟩⟩ :=
        rustTrim_eq_head_last htv (by simp)
      refine ⟨d2, ?_, hd2w⟩
      have h1 : ('=' :: b :: q).getLast? = (b :: q).getLast? := by
        rw [show ('=' :: b :: q) = ['='] ++ (b :: q) from rfl,
          List.getLast?_append_of_ne_nil _ (by simp)]
      rw [List.getLast?_append_of_ne_nil _ (by simp), h1]
      exact hd2
  obtain ⟨d3, hd3, hd3w⟩ := hlast
  refine ⟨?_, ?_, ?_, ?_, ⟨d3, hd3, ?_⟩⟩
  · exact rustTrim_ne_ws hhead hcw hd3 hd3w
  · rw [hhead]
    intro hcc
    have hch : c = '#' := by simpa using hcc
    cases k with
    | nil => exact absurd rfl hk
    | cons a r =>
      have hac : a = c := by simpa using hc
      exact hhk (by simp [hac, hch])
  · exact splitFirstEq_of_decomp hek
  · intro hm
    rcases List.mem_append.1 hm with hm | hm
    · exact hnk hm
    · rcases List.mem_cons.1 hm with hm | hm
      · exact absurd hm.symm (by decide)
      · exact hnv hm
  · intro hdr
    subst hdr
    simp [rustWs] at hd3w

theorem parse_env_line_entry {m : List (List Char × List Char)} {k v : List Char}
    (hg : goodEntry (k, v)) :
    parse_env_line m (k ++ '=' :: v) = insertMap m k v := by
  obtain ⟨htrim, hhash, hsplit, _, _⟩ := entry_line_facts hg
  obtain ⟨hk, htk, htv, _⟩ := hg
  rw [parse_env_line]
  simp only [htrim]
  rw [if_neg (by simp), if_neg hhash, hsplit]
  simp only [htk, htv]
  rw [if_neg hk]

theorem env_render_entries_eq {e : List (List Char × List Char)}
    (hg : ∀ kv ∈ e, goodEntry kv) :
    env_render_entries e = joinNl (e.map (fun kv => kv.1 ++ '=' :: kv.2)) := by
  rw [env_render_entries, env_content_json_file, List.map_map]
  congr 1
  apply List.map_congr_left
  intro kv hkv
  obtain ⟨_, _, _, _, _, _, _, _, hqv, _⟩ := hg kv hkv
  show kv.1 ++ '=' :: trimQuotes (jsonValueToEnvChars (JsonVal.str kv.2)) = _
  rw [show jsonValueToEnvChars (JsonVal.str kv.2) = kv.2 from rfl, trimQuotes_no_quote hqv]

theorem rustLines_env_render {e : List (List Char × List Char)} (hne : e ≠ [])
    (hg : ∀ kv ∈ e, goodEntry kv) :
    rustLines (env_render_entries e) = e.map (fun kv => kv.1 ++ '=' :: kv.2) := by
  rw [env_render_entries_eq hg]
  have hlinesnl : ∀ x ∈ e.map (fun kv => kv.1 ++ '=' :: kv.2), '\n' ∉ x := by
    intro x hx
    obtain ⟨kv, hkv, hkvx⟩ := List.mem_map.1 hx
    obtain ⟨_, _, _, hnl, _⟩ := entry_line_facts (k := kv.1) (v := kv.2) (hg kv hkv)
    exact hkvx ▸ hnl
  rw [rustLines_joinNl (by simpa using hne) hlinesnl]
  have hstrip : ∀ x ∈ e.map (fun kv => kv.1 ++ '=' :: kv.2), stripCr x = id x := by
    intro x hx
    obtain ⟨kv, hkv, hkvx⟩ := List.mem_map.1 hx
    obtain ⟨_, _, _, _, ⟨d, hd, hdr⟩⟩ :=
      entry_line_facts (k := kv.1) (v := kv.2) (hg kv hkv)
    rw [← hkvx]
    exact stripCr_of_getLast hd hdr
  rw [List.map_congr_left hstrip, List.map_id]

theorem foldl_insert_entries :
    ∀ (e m : List (List Char × List Char)),
      (∀ kv ∈ e, goodEntry kv) → (e.map Prod.fst).Nodup →
      (∀ kv ∈ e, kv.1 ∉ m.map Prod.fst) →
      (e.map (fun kv => kv.1 ++ '=' :: kv.2)).foldl parse_env_line m = m ++ e := by
  intro e
  induction e with
  | nil =>
    intro m _ _ _
    simp
  | cons kv e ih =>
    obtain ⟨k, v⟩ := kv
    intro m hg hnd hdisj
    rw [List.map_cons, List.foldl_cons]
    have hgkv : goodEntry (k, v) := hg (k, v) (List.mem_cons_self _ _)
    have hknotm : k ∉ m.map Prod.fst := hdisj (k, v) (List.mem_cons_self _ _)
    rw [parse_env_line_entry hgkv, insertMap_not_mem hknotm]
    have hnd' : (e.map Prod.fst).Nodup := by
      rw [List.map_cons, List.nodup_cons] at hnd
      exact hnd.2
    have hkne : k ∉ e.map Prod.fst := by
      rw [List.map_cons, List.nodup_cons] at hnd
      exact hnd.1
    rw [ih (m ++ [(k, v)]) (fun kv' hkv' => hg kv' (List.mem_cons_of_mem _ hkv')) hnd' ?hdj]
    case hdj =>
      intro kv' hkv'
      rw [List.map_append]
      intro hmem
      rcases List.mem_append.1 hmem with hm | hm
      · exact hdisj kv' (List.mem_cons_of_mem _ hkv') hm
      · have : kv'.1 = k := by simpa using hm
        exact hkne (this ▸ List.mem_map_of_mem Prod.fst hkv')
    rw [List.append_assoc]
    rfl

theorem parse_env_vars_render {e : List (List Char × List Char)} (hne : e ≠ [])
    (hg : ∀ kv ∈ e, goodEntry kv) (hnd : (e.map Prod.fst).Nodup) :
    parse_env_vars (env_render_entries e) = e := by
  rw [parse_env_vars, rustLines_env_render hne hg,
    foldl_insert_entries e [] hg hnd (by simp)]
  rfl

theorem no_quote_env_render {e : List (List Char × List Char)}
    (hg : ∀ kv ∈ e, goodEntry kv) : '"' ∉ env_render_entries e := by
  rw [env_render_entries_eq hg]
  intro hm
  rcases mem_joinNl hm with hm | ⟨x, hx, hcx⟩
  · exact absurd hm (by simp [hm])
  · obtain ⟨kv, hkv, hkvx⟩ := List.mem_map.1 hx
    obtain ⟨_, _, _, _, _, hqk, _, _, hqv, _⟩ := hg kv hkv
    rw [← hkvx] at hcx
    rcases List.mem_append.1 hcx with hm2 | hm2
    · exact hqk hm2
    · rcases List.mem_cons.1 hm2 with hm2 | hm2
      · exact absurd hm2.symm (by decide)
      · exact hqv hm2

theorem roundtrip_extract {e : List (List Char × List Char)} (hne : e ≠ [])
    (hg : ∀ kv ∈ e, goodEntry kv) (hnd : (e.map Prod.fst).Nodup) :
    extract_kv (detect_secret_format (env_render_entries e)) = some e := by
  obtain ⟨kv, rest, hrest⟩ : ∃ kv rest, e = kv :: rest := by
    cases e with
    | nil => exact absurd rfl hne
    | cons kv rest => exact ⟨kv, rest, rfl⟩
  have hrender : env_render_entries e
      = (kv.1 ++ '=' :: kv.2) ++ '\n' :: joinNl (rest.map (fun p => p.1 ++ '=' :: p.2)) := by
    rw [env_render_entries_eq hg, hrest]
    rfl
  have heq : '=' ∈ env_render_entries e := by
    rw [hrender]
    exact List.mem_append.2 (Or.inl (List.mem_append.2 (Or.inr (List.mem_cons_self _ _))))
  have hnl : '\n' ∈ env_render_entries e := by
    rw [hrender]
    exact List.mem_append.2 (Or.inr (List.mem_cons_self _ _))
  have hdet : detect_secret_format (env_render_entries e)
      = SecretFormat.plainText (env_render_entries e) := by
    rw [detect_secret_format, jsonParse_none_noquote (no_quote_env_render hg) heq]
  rw [hdet]
  rw [show extract_kv (SecretFormat.plainText (env_render_entries e))
      = if (env_render_entries e).contains '=' && (env_render_entries e).contains '\n'
        then some (parse_env_vars (env_render_entries e)) else none from rfl]
  rw [if_pos (by rw [contains_iff_mem.2 heq, contains_iff_mem.2 hnl]; rfl),
    parse_env_vars_render hne hg hnd]

/-! ### CSV escaping -/

theorem doubleQuotes_cons (c : Char) (r : List Char) :
    doubleQuotes (c :: r) = if c = '"' then '"' :: '"' :: doubleQuotes r
      else c :: doubleQuotes r := rfl

theorem collapseQuotes_qq (r : List Char) :
    collapseQuotes ('"' :: '"' :: r) = '"' :: collapseQuotes r := by
  simp [collapseQuotes]

theorem collapseQuotes_cons {c : Char} (hc : c ≠ '"') (r : List Char) :
    collapseQuotes (c :: r) = c :: collapseQuotes r := by
  cases r with
  | nil => rfl
  | cons d q => simp [collapseQuotes, hc]

theorem collapse_doubleQuotes (l : List Char) : collapseQuotes (doubleQuotes l) = l := by
  induction l with
  | nil => rfl
  | cons c r ih =>
    by_cases hc : c = '"'
    · subst hc
      rw [doubleQuotes_cons, if_pos rfl, collapseQuotes_qq, ih]
    · rw [doubleQuotes_cons, if_neg hc, collapseQuotes_cons hc, ih]

theorem no_quote_doubleQuotes {l : List Char} (h : '"' ∉ l) : doubleQuotes l = l := by
  induction l with
  | nil => rfl
  | cons c r ih =>
    have hc : c ≠ '"' := fun hh => h (hh ▸ List.mem_cons_self c r)
    rw [doubleQuotes_cons, if_neg hc, ih fun hh => h (List.mem_cons_of_mem c hh)]

theorem mem_doubleQuotes {l : List Char} {c : Char} (h : c ∈ doubleQuotes l) : c ∈ l := by
  induction l with
  | nil => simp [doubleQuotes] at h
  | cons a r ih =>
    by_cases ha : a = '"'
    · subst ha
      rw [doubleQuotes_cons, if_pos rfl] at h
      rcases List.mem_cons.1 h with h | h
      · exact h ▸ List.mem_cons_self _ _
      · rcases List.mem_cons.1 h with h | h
        · exact h ▸ List.mem_cons_self _ _
        · exact List.mem_cons_of_mem _ (ih h)
    · rw [doubleQuotes_cons, if_neg ha] at h
      rcases List.mem_cons.1 h with h | h
      · exact h ▸ List.mem_cons_self _ _
      · exact List.mem_cons_of_mem _ (ih h)

theorem csvUnescape_cons (c : Char) (r : List Char) :
    csvUnescape (c :: r) = if c = '"' ∧ r ≠ [] ∧ r.getLast? = some '"'
      then collapseQuotes r.dropLast else c :: r := rfl

theorem csvUnescape_csvEscape (v : List Char) : csvUnescape (csvEscapeField v) = v := by
  rw [csvEscapeField]
  by_cases hs : v.any csvSpecial = true
  · rw [if_pos hs]
    rw [show ('"' :: doubleQuotes v ++ ['"']) = '"' :: (doubleQuotes v ++ ['"']) from rfl]
    rw [csvUnescape_cons]
    rw [if_pos ⟨rfl, by simp, List.getLast?_concat _⟩, List.dropLast_concat,
      collapse_doubleQuotes]
  · rw [if_neg hs]
    have hq : '"' ∉ v := by
      intro hm
      exact hs (List.any_eq_true.2 ⟨'"', hm, by decide⟩)
    cases v with
    | nil => rfl
    | cons c r =>
      have hc : c ≠ '"' := fun hh => hq (hh ▸ List.mem_cons_self c r)
      rw [csvUnescape_cons, if_neg (fun hh => hc hh.1)]

theorem csvEscapeField_quoted {v : List Char}
    (h : ',' ∈ v ∨ '"' ∈ v ∨ '\n' ∈ v) :
    csvEscapeField v = '"' :: doubleQuotes v ++ ['"'] := by
  rw [csvEscapeField, if_pos]
  rcases h with h | h | h
  · exact List.any_eq_true.2 ⟨',', h, by decide⟩
  · exact List.any_eq_true.2 ⟨'"', h, by decide⟩
  · exact List.any_eq_true.2 ⟨'\n', h, by decide⟩

/-! ### Env rendering of string-valued JSON objects (claim C2) -/

theorem env_content_lines {ms : List (List Char × JsonVal)} (hne : ms ≠ [])
    (hnr : ∀ kv ∈ ms, '\n' ∉ kv.1 ∧ '\r' ∉ kv.1 ∧
      '\n' ∉ jsonValueToEnvChars kv.2 ∧ '\r' ∉ jsonValueToEnvChars kv.2) :
    rustLines (env_content_json_file ms)
      = ms.map (fun kv => kv.1 ++ '=' :: trimQuotes (jsonValueToEnvChars kv.2)) := by
  rw [env_content_json_file]
  have hlnl : ∀ x ∈ ms.map (fun kv => kv.1 ++ '=' :: trimQuotes (jsonValueToEnvChars kv.2)),
      '\n' ∉ x := by
    intro x hx
    obtain ⟨kv, hkv, hkvx⟩ := List.mem_map.1 hx
    obtain ⟨hnk, _, hnv, _⟩ := hnr kv hkv
    rw [← hkvx]
    intro hm
    rcases List.mem_append.1 hm with hm | hm
    · exact hnk hm
    · rcases List.mem_cons.1 hm with hm | hm
      · exact absurd hm.symm (by decide)
      · exact hnv (mem_of_mem_trimQuotes hm)
  rw [rustLines_joinNl (by simpa using hne) hlnl]
  have hstrip : ∀ x ∈ ms.map (fun kv => kv.1 ++ '=' :: trimQuotes (jsonValueToEnvChars kv.2)),
      stripCr x = id x := by
    intro x hx
    obtain ⟨kv, hkv, hkvx⟩ := List.mem_map.1 hx
    obtain ⟨_, _, _, hrv⟩ := hnr kv hkv
    rw [← hkvx]
    cases hw : trimQuotes (jsonValueToEnvChars kv.2) with
    | nil =>
      exact stripCr_of_getLast (List.getLast?_concat kv.1) (by decide)
    | cons b q =>
      obtain ⟨d, hd⟩ : ∃ d, (b :: q).getLast? = some d := by
        cases hgl : (b :: q).getLast? with
        | none => exact absurd (List.getLast?_eq_none_iff.1 hgl) (by simp)
        | some d => exact ⟨d, rfl⟩
      have hdr : d ≠ '\r' := by
        intro hh
        subst hh
        exact hrv (mem_of_mem_trimQuotes (hw ▸ mem_of_getLast?_eq hd))
      refine stripCr_of_getLast ?_ hdr
      rw [List.getLast?_append_of_ne_nil _ (by simp),
        show ('=' :: b :: q) = ['='] ++ (b :: q) from rfl,
        List.getLast?_append_of_ne_nil _ (by simp)]
      exact hd
  rw [List.map_congr_left hstrip, List.map_id]

/-! ### The listing formatter -/

theorem charListLe_nil (x : Char) (xs : List Char) : charListLe (x :: xs) [] = false := rfl

theorem charListLe_cons (x y : Char) (xs ys : List Char) :
    charListLe (x :: xs) (y :: ys)
      = if x < y then true else if x = y then charListLe xs ys else false := rfl

theorem charListLe_total : ∀ a b : List Char, charListLe a b = true ∨ charListLe b a = true := by
  intro a
  induction a with
  | nil =>
    intro b
    exact Or.inl rfl
  | cons x as ih =>
    intro b
    cases b with
    | nil => exact Or.inr rfl
    | cons y bs =>
      rcases lt_trichotomy x y with hxy | hxy | hxy
      · exact Or.inl (by rw [charListLe_cons, if_pos hxy])
      · subst hxy
        rcases ih bs with h | h
        · exact Or.inl (by rw [charListLe_cons, if_neg (lt_irrefl x), if_pos rfl]; exact h)
        · exact Or.inr (by rw [charListLe_cons, if_neg (lt_irrefl x), if_pos rfl]; exact h)
      · exact Or.inr (by rw [charListLe_cons, if_pos hxy])

theorem charListLe_trans :
    ∀ a b c : List Char, charListLe a b = true → charListLe b c = true →
      charListLe a c = true := by
  intro a
  induction a with
  | nil =>
    intro b c _ _
    rfl
  | cons x as ih =>
    intro b c hab hbc
    cases b with
    | nil =>
      rw [charListLe_nil] at hab
      exact absurd hab (by simp)
    | cons y bs =>
      cases c with
      | nil =>
        rw [charListLe_nil] at hbc
        exact absurd hbc (by simp)
      | cons z cs =>
        rw [charListLe_cons] at hab hbc ⊢
        by_cases hxy : x < y
        · rw [if_pos hxy] at hab
          by_cases hyz : y < z
          · rw [if_pos (lt_trans hxy hyz)]
          · rw [if_neg hyz] at hbc
            by_cases hyz2 : y = z
            · subst hyz2
              rw [if_pos hxy]
            · simp [hyz2] at hbc
        · rw [if_neg hxy] at hab
          by_cases hxy2 : x = y
          · subst hxy2
            rw [if_pos rfl] at hab
            by_cases hxz : x < z
            · rw [if_pos hxz]
            · rw [if_neg hxz] at hbc ⊢
              by_cases hxz2 : x = z
              · rw [if_pos hxz2] at hbc ⊢
                exact ih bs cs hab hbc
              · simp [hxz2] at hbc
          · simp [hxy2] at hab

instance stringLeP_total : IsTotal String stringLeP :=
  ⟨fun a b => charListLe_total a.data b.data⟩

instance stringLeP_trans : IsTrans String stringLeP :=
  ⟨fun a b c => charListLe_trans a.data b.data c.data⟩

theorem list_secrets_retained_sorted (names : List String) (filter : Option String) :
    List.Sorted stringLeP (list_secrets_retained names filter) :=
  List.sorted_insertionSort stringLeP _

theorem list_secrets_retained_mem (names : List String) (filter : Option String)
    (x : String) :
    x ∈ list_secrets_retained names filter ↔ x ∈ names ∧ nameMatches filter x = true := by
  rw [list_secrets_retained,
    (List.perm_insertionSort stringLeP (names.filter (nameMatches filter))).mem_iff]
  exact List.mem_filter

/-! ### The claims -/

/-- Claim C1, counterexample: for a structured JSON secret, the
`Stdout`-with-file branch does not write the original document verbatim;
the object payload `\x7b"A":"b"\x7d` is written as the formatted line
`A=b`. -/
theorem claim_c1_counterexample :
    stdout_file_secret_string_content ("\x7b\x22A\x22:\x22b\x22\x7d".data) = "A=b\n".data ∧
      "A=b\n".data ≠ "\x7b\x22A\x22:\x22b\x22\x7d".data := by
  exact ⟨by rfl, by decide⟩

/-- Claim C1 (amended): with `Stdout` format and an explicit output file,
a plain-text secret (a payload that does not parse as JSON) and a binary
secret are written verbatim; a JSON object payload is instead written as
formatted `key=value` lines (and so not verbatim in general). -/
theorem claim_c1_amended :
    (∀ cs : List Char, jsonParse cs = none → stdout_file_secret_string_content cs = cs) ∧
      (∀ b : List Nat, stdout_file_binary_content b = b) ∧
      (∀ ms : List (List Char × JsonVal),
        stdout_file_json_content (JsonVal.obj ms) = stdout_file_json_lines ms) := by
  refine ⟨?_, fun b => rfl, fun ms => rfl⟩
  intro cs h
  rw [stdout_file_secret_string_content, detect_secret_format, h]

/-- Witness for claim C1 (amended) at the plain-text payload `hello`. -/
theorem claim_c1_amended_witness :
    jsonParse ("hello".data) = none ∧
      stdout_file_secret_string_content ("hello".data) = "hello".data :=
  ⟨by rfl, claim_c1_amended.1 ("hello".data) (by rfl)⟩

/-- Claim C2, counterexample: a member value carrying a quote only at its
start is claimed to be written unchanged, but `trim_matches` removes it:
the object `\x7b"K": "\x22abc"\x7d` renders as `K=abc`, not as the
one-layer-stripping rule predicts. -/
theorem claim_c2_counterexample :
    env_content_json_file [("K".data, JsonVal.str ("\x22abc".data))] = "K=abc\n".data ∧
      "K=abc\n".data ≠ "K=".data ++ specStripOneLayer ("\x22abc".data) ++ "\n".data := by
  exact ⟨by rfl, by decide⟩

/-- Claim C2 (amended): env rendering of a JSON object all of whose member
values are strings emits one `KEY=value` chunk terminated by a newline per
member, in input key order, the written value being the member string with
every leading and trailing double quote removed (`trim_matches` semantics,
also stripping a quote present on one side only); when no key or value
contains a newline or carriage return this is exactly one line per member. -/
theorem claim_c2_amended (e : List (List Char × List Char)) :
    env_content_json_file (e.map (fun kv => (kv.1, JsonVal.str kv.2)))
        = joinNl (e.map (fun kv => kv.1 ++ '=' :: trimQuotes kv.2)) ∧
      (e ≠ [] → (∀ kv ∈ e, '\n' ∉ kv.1 ∧ '\r' ∉ kv.1 ∧ '\n' ∉ kv.2 ∧ '\r' ∉ kv.2) →
        rustLines (env_content_json_file (e.map (fun kv => (kv.1, JsonVal.str kv.2))))
          = e.map (fun kv => kv.1 ++ '=' :: trimQuotes kv.2)) := by
  constructor
  · rw [env_content_json_file, List.map_map]
    rfl
  · intro hne hnr
    rw [env_content_lines (by simpa using hne) ?hc, List.map_map]
    · rfl
    case hc =>
      intro kv hkv
      obtain ⟨p, hp, hpe⟩ := List.mem_map.1 hkv
      obtain ⟨h1, h2, h3, h4⟩ := hnr p hp
      rw [← hpe]
      exact ⟨h1, h2, h3, h4⟩

/-- Witness for claim C2 (amended) at the one-member object `K = v`. -/
theorem claim_c2_amended_witness :
    rustLines (env_content_json_file
        ([("K".data, "v".data)].map (fun kv => (kv.1, JsonVal.str kv.2))))
      = [("K".data, "v".data)].map (fun kv => kv.1 ++ '=' :: trimQuotes kv.2) :=
  (claim_c2_amended [("K".data, "v".data)]).2 (by decide) (by decide)

/-- Claim C3, counterexample: `parse_env_vars` (the JSON/YAML conversion
path) keeps the surrounding quotes of a value: `A="x"` yields the value
`"x"`, not `x` as the claim's quote-stripping rule predicts. -/
theorem claim_c3_counterexample :
    parse_env_vars ("A=\x22x\x22".data) = [("A".data, "\x22x\x22".data)] ∧
      ("\x22x\x22".data : List Char) ≠ "x".data := by
  exact ⟨by rfl, by decide⟩

/-- Claim C3 (amended): per line, a candidate pair needs an `'='`; the line
is split at its first `'='`; the key is the part before, whitespace
trimmed; comment lines (`'#'` after trimming) and empty-key lines are
dropped; the value is the part after, whitespace trimmed — with its
surrounding quotes KEPT for the JSON/YAML conversion and with ALL
surrounding double quotes removed for the CSV conversion. -/
theorem claim_c3_amended :
    (∀ m l, parse_env_line m l = spec_parse_line m l) ∧
      (∀ acc l, csv_row_step acc l = spec_csv_line acc l) ∧
      (∀ cs, parse_env_vars cs = (rustLines cs).foldl spec_parse_line []) ∧
      (∀ cs, convert_env_to_csv_rows cs = (rustLines cs).foldl spec_csv_line []) := by
  refine ⟨parse_env_line_eq_spec, csv_row_step_eq_spec, ?_, ?_⟩
  · intro cs
    rw [parse_env_vars]
    have he : parse_env_line = spec_parse_line :=
      funext fun m => funext fun l => parse_env_line_eq_spec m l
    rw [he]
  · intro cs
    rw [convert_env_to_csv_rows]
    have he : csv_row_step = spec_csv_line :=
      funext fun m => funext fun l => csv_row_step_eq_spec m l
    rw [he]

/-- Claim C4, counterexample: a single-line scalar containing `'='` is not
written unmodified: `A="v"` is written as `A=v` with a trailing newline,
its quotes stripped. -/
theorem claim_c4_counterexample :
    plain_env_content ("A=\x22v\x22".data) = "A=v\n".data ∧
      "A=v\n".data ≠ "A=\x22v\x22".data ∧
      "A=v\n".data ≠ "A=\x22v\x22".data ++ "\n".data := by
  exact ⟨by rfl, by decide, by decide⟩

/-- Claim C4 (amended): a single-line plain-text scalar containing `'='`
renders to Env as the line split at its first `'='` with all surrounding
double quotes trimmed from the value and a guaranteed trailing newline (no
`SECRET_VALUE` key is prepended); a scalar with no `'='` renders as the
single line `SECRET_VALUE=<text>` plus newline. -/
theorem claim_c4_amended :
    (∀ cs k v : List Char, '\n' ∉ cs → splitFirstEq cs = some (k, v) →
        plain_env_content cs = k ++ '=' :: trimQuotes v ++ ['\n']) ∧
      (∀ cs : List Char, cs.contains '=' = false →
        plain_env_content cs = "SECRET_VALUE=".data ++ cs ++ ['\n']) := by
  constructor
  · intro cs k v hnl hs
    exact plain_env_content_single hnl hs
  · intro cs h
    simp only [plain_env_content, h, Bool.false_eq_true, if_false]

/-- Witness for claim C4 (amended) at `A=1` and at `hello`. -/
theorem claim_c4_amended_witness :
    plain_env_content ("A=1".data) = "A".data ++ '=' :: trimQuotes ("1".data) ++ ['\n'] ∧
      plain_env_content ("hello".data) = "SECRET_VALUE=".data ++ "hello".data ++ ['\n'] :=
  ⟨claim_c4_amended.1 ("A=1".data) ("A".data) ("1".data) (by decide) (by rfl),
    claim_c4_amended.2 ("hello".data) (by rfl)⟩

/-- Claim C5, counterexample: entries with no `'='` and no newline are not
always recovered: the value `" x"` is whitespace-trimmed by extraction, so
the round trip of `[("A", " x")]` returns `[("A", "x")]`, a different set
of pairs. -/
theorem claim_c5_counterexample :
    extract_kv (detect_secret_format (env_render_entries [("A".data, " x".data)]))
        = some [("A".data, "x".data)] ∧
      ("A".data, " x".data) ∉ [("A".data, "x".data)] := by
  exact ⟨by rfl, by decide⟩

/-- Claim C5 (amended): the env round trip
`extract (classify (render_env entries))` recovers the entries exactly for
every nonempty entry list with pairwise distinct keys whose keys are
nonempty, whitespace-trimmed, not starting with `'#'`, and whose keys and
values contain no `'='`, newline, or double quote and carry no surrounding
whitespace. -/
theorem claim_c5_amended (e : List (List Char × List Char)) (hne : e ≠ [])
    (hg : ∀ kv ∈ e, goodEntry kv) (hnd : (e.map Prod.fst).Nodup) :
    extract_kv (detect_secret_format (env_render_entries e)) = some e :=
  roundtrip_extract hne hg hnd

/-- Witness for claim C5 (amended) at the single entry `K = v`. -/
theorem claim_c5_amended_witness :
    extract_kv (detect_secret_format (env_render_entries [("K".data, "v".data)]))
      = some [("K".data, "v".data)] :=
  claim_c5_amended [("K".data, "v".data)] (by decide) (by decide) (by decide)

/-- Claim C6: CSV escaping quotes every field containing a comma, a double
quote, or a newline (wrapping it in quotes and doubling inner quotes), and
standard CSV unescaping of the emitted field recovers the original value
exactly. -/
theorem claim_c6 (v : List Char) :
    ((',' ∈ v ∨ '"' ∈ v ∨ '\n' ∈ v) →
        csvEscapeField v = '"' :: doubleQuotes v ++ ['"']) ∧
      csvUnescape (csvEscapeField v) = v :=
  ⟨csvEscapeField_quoted, csvUnescape_csvEscape v⟩

/-- Witness for claim C6 at the field `a,b`. -/
theorem claim_c6_witness :
    csvEscapeField ("a,b".data) = '"' :: doubleQuotes ("a,b".data) ++ ['"'] ∧
      csvUnescape (csvEscapeField ("a,b".data)) = "a,b".data :=
  ⟨(claim_c6 ("a,b".data)).1 (by decide), (claim_c6 ("a,b".data)).2⟩

/-- Claim C7: a JSON payload that is not an object, rendered to Env,
produces the user-visible message about an invalid object and writes no
file, with or without a caller-supplied path. -/
theorem claim_c7 (j : JsonVal) (file : Option String) (h : asObject? j = none) :
    (process_json_secret_env j file).1 = [] ∧
      (process_json_secret_env j file).2 = ["The secret is not a valid JSON object."] := by
  cases file <;> simp [process_json_secret_env, h]

/-- Witness for claim C7 at a string payload and an explicit path. -/
theorem claim_c7_witness :
    (process_json_secret_env (JsonVal.str ("x".data)) (some "out.env")).1 = [] ∧
      (process_json_secret_env (JsonVal.str ("x".data)) (some "out.env")).2
        = ["The secret is not a valid JSON object."] :=
  claim_c7 (JsonVal.str ("x".data)) (some "out.env") (by rfl)

/-- Claim C8: the listing retains a name iff the filter is absent or a
case-sensitive substring of it, shows the retained names sorted
lexicographically, prints the distinct empty message when nothing is
retained, and otherwise prints each retained name plus a total count. -/
theorem claim_c8 (names : List String) (filter : Option String) :
    (∀ x, x ∈ list_secrets_retained names filter ↔
        x ∈ names ∧ (filter = none ∨ ∃ f, filter = some f ∧ f.data <:+: x.data)) ∧
      List.Sorted stringLeP (list_secrets_retained names filter) ∧
      (list_secrets_retained names filter = [] →
        list_secrets_output names filter = ["No secrets found."]) ∧
      (list_secrets_retained names filter ≠ [] →
        list_secrets_output names filter
          = "Available secrets:" ::
              (list_secrets_retained names filter).map (fun n => "- " ++ n) ++
              ["\nTotal: " ++ toString (list_secrets_retained names filter).length
                ++ " secrets"]) := by
  refine ⟨?_, list_secrets_retained_sorted names filter, ?_, ?_⟩
  · intro x
    rw [list_secrets_retained_mem]
    constructor
    · rintro ⟨hmem, hmatch⟩
      refine ⟨hmem, ?_⟩
      cases filter with
      | none => exact Or.inl rfl
      | some f =>
        refine Or.inr ⟨f, rfl, ?_⟩
        simpa [nameMatches] using hmatch
    · rintro ⟨hmem, hmatch⟩
      refine ⟨hmem, ?_⟩
      rcases hmatch with hf | ⟨f, hf, hsub⟩
      · rw [hf]
        rfl
      · rw [hf]
        simpa [nameMatches] using hsub
  · intro hemp
    rw [list_secrets_output]
    simp [hemp]
  · intro hne
    rw [list_secrets_output]
    simp only [List.isEmpty_iff]
    rw [if_neg hne]

/-- Witness for claim C8 at the filter `db` over three names. -/
theorem claim_c8_witness :
    list_secrets_output ["db-prod", "cache", "db-staging"] (some "db")
      = "Available secrets:" ::
          (list_secrets_retained ["db-prod", "cache", "db-staging"] (some "db")).map
            (fun n => "- " ++ n) ++
          ["\nTotal: " ++ toString (list_secrets_retained ["db-prod", "cache",
            "db-staging"] (some "db")).length ++ " secrets"] :=
  (claim_c8 ["db-prod", "cache", "db-staging"] (some "db")).2.2.2 (by decide)

/-- Claim C9: the duplicated env-content loops of `process_json_secret`
(the caller-supplied-file branch and the default `.env` branch) compute the
same content for every JSON object. -/
theorem claim_c9 (ms : List (List Char × JsonVal)) :
    env_content_json_file ms = env_content_json_default ms := rfl

/-- Claim C10: for a payload containing `'='`, Env rendering maps each line
through `procLine`, which leaves every line without `'='` (blank lines and
comments included) verbatim, while the JSON/YAML extraction and the CSV row
extraction give the same result when all such lines are removed. -/
theorem claim_c10 (t : List Char) (h : t.contains '=' = true) :
    plain_env_content t = joinNl ((rustLines t).map procLine) ∧
      (∀ l ∈ rustLines t, '=' ∉ l → procLine l = l) ∧
      parse_env_vars t
        = ((rustLines t).filter (fun l => l.contains '=')).foldl parse_env_line [] ∧
      convert_env_to_csv_rows t
        = ((rustLines t).filter (fun l => l.contains '=')).foldl csv_row_step [] := by
  refine ⟨plain_env_content_joinNl h, ?_, ?_, ?_⟩
  · intro l _ hl
    exact procLine_no_eq hl
  · rw [parse_env_vars]
    exact foldl_filter_eq parse_env_line (fun l => l.contains '=')
      (fun b a ha => parse_env_line_no_eq ha) (rustLines t) []
  · rw [convert_env_to_csv_rows]
    exact foldl_filter_eq csv_row_step (fun l => l.contains '=')
      (fun b a ha => csv_row_step_no_eq ha) (rustLines t) []

/-- Witness for claim C10 at a payload with a comment line. -/
theorem claim_c10_witness :
    ("# c\nK=1".data).contains '=' = true ∧
      plain_env_content ("# c\nK=1".data)
        = joinNl ((rustLines ("# c\nK=1".data)).map procLine) :=
  ⟨by decide, (claim_c10 ("# c\nK=1".data) (by decide)).1⟩

end SmEnv
